import Mathlib

/-!
Verification of the expand-diplomatic core against its source.

This file gives a shallow embedding, in Lean 4, of the pure logic of the
repository:

* `examples_io.py` — appearance keys, example selection, layered loading,
  and the learned-pool merge;
* `expander.py` — block extraction over an XML tree, a single block-mode
  expansion pass, serialization, and the out-of-order-completion /
  in-order-apply scheduler.

External collaborators (the `lxml` tree, Python's `unicodedata`, the file
system and JSON parser) are modelled explicitly: the XML tree is a rose
tree, Unicode normalization is modelled on a finite character fragment
that covers every character the properties mention, and files are
modelled by their parse outcome.  Machine details that no theorem relies
on (the mtime cache, thread pool plumbing, the actual LLM call) are
abstracted: the per-block transformation is a function parameter.
-/

namespace ExpandDiplomatic

/-! ## Python string primitives

Models of the Python string operations used throughout `examples_io.py`:
`str.strip()` and the `\s` character class of `re` (used by `_WS_RE`).
-/

/-- Model of Python's whitespace class: the characters matched by `\s`
in `re` and stripped by `str.strip()` (ASCII whitespace, the C1 file and
record separators, NEL, and the Unicode space and line separators). -/
def isPyWs (c : Char) : Bool :=
  c = ' ' || c = '\t' || c = '\n' || c = '\r' || c = '\u000b' || c = '\u000c' ||
  c = '\u001c' || c = '\u001d' || c = '\u001e' || c = '\u001f' || c = '\u0085' ||
  c = '\u00a0' || c = '\u1680' ||
  ('\u2000' ≤ c && c ≤ '\u200a') ||
  c = '\u2028' || c = '\u2029' || c = '\u202f' || c = '\u205f' || c = '\u3000'

/-- Model of Python `str.strip()` on a character list. -/
def pyStripL (l : List Char) : List Char :=
  ((l.dropWhile isPyWs).reverse.dropWhile isPyWs).reverse

/-- Model of Python `str.strip()`. -/
def pyStrip (s : String) : String :=
  String.mk (pyStripL s.data)

/-! ## Unicode normalization fragment

`appearance_key` (examples_io.py lines 119-132) calls
`unicodedata.normalize("NFKC", text)`.  We model NFKC on a finite
fragment of the Unicode character database sufficient for every
character named by the specification: a canonical composition table for
a few Latin letter + combining mark pairs, and the compatibility
decompositions of the no-break/narrow/thin spaces and of the double
prime.  NFKC = compatibility + canonical decomposition followed by
canonical composition; characters outside the fragment are inert, and
canonical reordering is a no-op on the fragment (at most one combining
mark in a row is ever produced).
-/

/-- Canonical composition fragment: (base, combining mark, composed).
Entries are taken from the Unicode database: e/a/E + U+0301 (combining
acute) and o + U+0308 (combining diaeresis); the composed characters are
U+00E9, U+00E1, U+00C9, U+00F6. -/
def compTab : List (Char × Char × Char) :=
  [('e', '\u0301', 'é'),
   ('a', '\u0301', 'á'),
   ('E', '\u0301', 'É'),
   ('o', '\u0308', 'ö')]

/-- Compatibility decomposition fragment: NBSP (U+00A0), narrow no-break
space (U+202F) and thin space (U+2009) decompose to a plain space; the
double prime U+2033 decomposes to two primes U+2032 (Unicode database
entry `<compat> 2032 2032`). -/
def compatTab : List (Char × List Char) :=
  [('\u00a0', [' ']),
   ('\u202f', [' ']),
   ('\u2009', [' ']),
   ('″', ['′', '′'])]

/-- Character is a base of some canonical composition pair of the fragment. -/
def isBase (c : Char) : Bool := compTab.any (fun t => t.1 = c)

/-- Character is a combining mark of the fragment. -/
def isMark (c : Char) : Bool := compTab.any (fun t => t.2.1 = c)

/-- Character is a precomposed character of the fragment. -/
def isComposed (c : Char) : Bool := compTab.any (fun t => t.2.2 = c)

/-- Full (compatibility + canonical) decomposition of one character. -/
def decompAllChar (c : Char) : List Char :=
  match compatTab.find? (fun p => p.1 = c) with
  | some p => p.2
  | none =>
    match compTab.find? (fun t => t.2.2 = c) with
    | some t => [t.1, t.2.1]
    | none => [c]

/-- Canonical-only decomposition of one character (used for NFD/NFC). -/
def canonDecompChar (c : Char) : List Char :=
  match compTab.find? (fun t => t.2.2 = c) with
  | some t => [t.1, t.2.1]
  | none => [c]

/-- Canonical composition: greedily compose adjacent (base, mark) pairs
left to right, as the Unicode canonical composition algorithm does on
this fragment. -/
def composePairs : List Char → List Char
  | [] => []
  | [c] => [c]
  | a :: b :: rest =>
    match compTab.find? (fun x => x.1 = a && x.2.1 = b) with
    | some x => x.2.2 :: composePairs rest
    | none => a :: composePairs (b :: rest)

/-- Model of `unicodedata.normalize("NFKC", ·)` on the fragment. -/
def nfkcL (l : List Char) : List Char := composePairs (l.flatMap decompAllChar)

/-- Model of NFC (canonical decomposition then composition) on the fragment. -/
def nfcL (l : List Char) : List Char := composePairs (l.flatMap canonDecompChar)

/-- Model of NFD (canonical decomposition) on the fragment. -/
def nfdL (l : List Char) : List Char := l.flatMap canonDecompChar

/-- The `_ZERO_WIDTH` set of examples_io.py line 98: ZWSP, ZWNJ, ZWJ,
and the BOM / zero-width no-break space. -/
def isZeroWidth (c : Char) : Bool :=
  c = '\u200b' || c = '\u200c' || c = '\u200d' || c = '\ufeff'

/-- The `_APPEARANCE_KEY_TRANS` table of examples_io.py lines 99-116:
dash variants (U+2010..U+2014, U+2212) to '-', single-quote lookalikes
(U+2018, U+2019, U+201B, U+2032) to an apostrophe, double-quote
lookalikes (U+201C, U+201D, U+201F, U+2033) to '"', and NBSP / narrow
no-break / thin space to ' '. -/
def transTab : List (Char × Char) :=
  [('\u2010', '-'), ('\u2011', '-'), ('\u2012', '-'),
   ('–', '-'), ('—', '-'), ('−', '-'),
   ('‘', '\''), ('’', '\''), ('‛', '\''), ('′', '\''),
   ('“', '"'), ('”', '"'), ('‟', '"'), ('″', '"'),
   ('\u00a0', ' '), ('\u202f', ' '), ('\u2009', ' ')]

/-- Model of `str.translate(_APPEARANCE_KEY_TRANS)` on one character. -/
def translateChar (c : Char) : Char :=
  match transTab.find? (fun p => p.1 = c) with
  | some p => p.2
  | none => c

/-- Replace every whitespace character by a plain space (first half of
modelling `_WS_RE.sub(" ", s)`). -/
def mapWsChar (c : Char) : Char := if isPyWs c then ' ' else c

/-- Collapse runs of adjacent spaces to a single space (second half of
modelling `_WS_RE.sub(" ", s)`: a maximal `\s+` run becomes one space). -/
def dedupSp : List Char → List Char
  | [] => []
  | [c] => [c]
  | a :: b :: rest =>
    if a = ' ' && b = ' ' then dedupSp (b :: rest)
    else a :: dedupSp (b :: rest)

/-- Drop leading and trailing spaces (the final `.strip()`; after the
substitution every whitespace character is a plain space). -/
def stripSp (l : List Char) : List Char :=
  ((l.dropWhile (fun c => c = ' ')).reverse.dropWhile (fun c => c = ' ')).reverse

/-- Model of `_WS_RE.sub(" ", s).strip()`. -/
def collapseWs (l : List Char) : List Char :=
  stripSp (dedupSp (l.map mapWsChar))

/-- Drop the `_ZERO_WIDTH` characters (examples_io.py line 129). -/
def stripZW (l : List Char) : List Char := l.filter (fun c => !isZeroWidth c)

/-- Model of `appearance_key` (examples_io.py lines 119-132) on a
character list: NFKC, drop zero-width characters, apply the translation
table, collapse whitespace and strip. -/
def appearanceKeyL (l : List Char) : List Char :=
  collapseWs ((stripZW (nfkcL l)).map translateChar)

/-- Model of `appearance_key` on strings. -/
def appearance_key (s : String) : String :=
  String.mk (appearanceKeyL s.data)

example : appearance_key "ámat" = "ámat" := by decide
example : appearance_key "  x   y " = "x y" := by decide
example : appearance_key "‘a’" = "'a'" := by decide


/-! ## XML document model

A rose-tree model of the parsed `lxml` document used by `expander.py`.
Mixed content is a list of children in which text is interleaved as
`text` nodes (this represents `el.text` plus each child's `tail`), so
`_inner_text(el) = "".join(el.itertext())` is the concatenation of all
text below the element.  Tags are stored by local name
(`_local_name`, expander.py lines 57-59); namespace URIs take no part in
any verified property.
-/

inductive Node where
  | text (s : String) : Node
  | elem (tag : String) (attrs : List (String × String)) (children : List Node) : Node
deriving Repr

mutual

/-- Boolean equality of nodes (deriving cannot handle the nested
inductive; used only to obtain decidable equality). -/
def beqN : Node → Node → Bool
  | .text s, .text s' => s = s'
  | .elem t a c, .elem t' a' c' => t = t' && a = a' && beqL c c'
  | _, _ => false

/-- Boolean equality of node lists. -/
def beqL : List Node → List Node → Bool
  | [], [] => true
  | n :: r, n' :: r' => beqN n n' && beqL r r'
  | _, _ => false

end

theorem beqN_iff (a : Node) : ∀ b, beqN a b = true ↔ a = b := by
  induction a using Node.rec (motive_2 := fun l => ∀ m, beqL l m = true ↔ l = m) with
  | text s => intro b; cases b <;> simp [beqN]
  | elem t at_ c ih => intro b; cases b <;> simp [beqN, ih, and_assoc]
  | nil => rename_i m; cases m <;> simp [beqL]
  | cons n r ihn ihr => rename_i m; cases m <;> simp [beqL, ihn, ihr]

instance : DecidableEq Node := fun a b => decidable_of_iff _ (beqN_iff a b)

/-- The `TEXT_BLOCK_TAGS` frozenset of expander.py line 41, as a list. -/
def TEXT_BLOCK_TAGS : List String :=
  ["p", "ab", "l", "seg", "item", "td", "th", "figDesc", "head", "Unicode"]

mutual

/-- Model of `_inner_text` (expander.py lines 320-321): concatenation of
all text in the subtree, in document order. -/
def innerTextN : Node → String
  | .text s => s
  | .elem _ _ c => innerTextL c

/-- Concatenated text of a list of siblings. -/
def innerTextL : List Node → String
  | [] => ""
  | n :: rest => innerTextN n ++ innerTextL rest

end

mutual

/-- The subtree rooted here contains an element (itself included) whose
local tag name is in `tags`. -/
def containsBlockTag (tags : List String) : Node → Bool
  | .text _ => false
  | .elem t _ c => tags.contains t || anyContainsBlockTag tags c

/-- Some sibling's subtree contains an element with a tag in `tags`. -/
def anyContainsBlockTag (tags : List String) : List Node → Bool
  | [] => false
  | n :: rest => containsBlockTag tags n || anyContainsBlockTag tags rest

end

/-- Model of `_has_descendant_block` (expander.py lines 331-337): some
strict descendant element has a local tag name in `tags`. -/
def hasDescendantBlock (tags : List String) : Node → Bool
  | .text _ => false
  | .elem _ _ c => anyContainsBlockTag tags c

/-- The block test applied to each iterated element in `_expand_once`
(expander.py lines 513-521): tag in the tag set, no descendant block
tag, and non-blank concatenated text. -/
def isBlockNode (tags : List String) : Node → Bool
  | .text _ => false
  | .elem t _ c =>
    tags.contains t && !anyContainsBlockTag tags c && !(pyStrip (innerTextL c) = "")

mutual

/-- Model of the block-list construction loop of `_expand_once`
(expander.py lines 512-521): pre-order traversal (`root.iter()`)
collecting every element that passes the block test. -/
def collectBlocks (tags : List String) : Node → List Node
  | .text _ => []
  | .elem t a c =>
    (if isBlockNode tags (.elem t a c) then [Node.elem t a c] else []) ++
      collectBlocksL tags c

/-- Pre-order block collection over a list of siblings. -/
def collectBlocksL (tags : List String) : List Node → List Node
  | [] => []
  | n :: rest => collectBlocks tags n ++ collectBlocksL tags rest

end

mutual

/-- Model of one block-mode expansion pass over the tree: every block
element has its content replaced by a single text node holding the
transformed text (`_set_inner_text`, expander.py lines 324-328, applied
to `f` of the block's raw inner text).  Because a block never contains
another block, collecting all blocks first and then mutating them (as
`_expand_once` does) agrees with this single recursive traversal. -/
def expandNode (tags : List String) (f : String → String) : Node → Node
  | .text s => .text s
  | .elem t a c =>
    if isBlockNode tags (.elem t a c) then .elem t a [.text (f (innerTextL c))]
    else .elem t a (expandNodeL tags f c)

/-- Expansion pass over a list of siblings. -/
def expandNodeL (tags : List String) (f : String → String) : List Node → List Node
  | [] => []
  | n :: rest => expandNode tags f n :: expandNodeL tags f rest

end

mutual

/-- Erase the content of every leaf-most tag-matched element (used to
state the frame property: everything outside block contents is
preserved by a pass).  The erasure condition deliberately drops the
non-blank-text part of the block test so that it is insensitive to what
a pass writes into the block. -/
def eraseInside (tags : List String) : Node → Node
  | .text s => .text s
  | .elem t a c =>
    if tags.contains t && !anyContainsBlockTag tags c then .elem t a []
    else .elem t a (eraseInsideL tags c)

/-- Erasure over a list of siblings. -/
def eraseInsideL (tags : List String) : List Node → List Node
  | [] => []
  | n :: rest => eraseInside tags n :: eraseInsideL tags rest

end

/-- Occurrence of a subtree in a document tree (reflexive-transitive
descent through children). -/
inductive Occurs : Node → Node → Prop where
  | refl (d : Node) : Occurs d d
  | child {b x : Node} {t : String} {a : List (String × String)} {c : List Node} :
      x ∈ c → Occurs b x → Occurs b (.elem t a c)

/-! ## Serialization

Model of `etree.tostring(root, encoding="unicode", pretty_print=False,
xml_declaration=False)` as used by `_serialize_root` (expander.py lines
378-388): text escapes `&`, `<`, `>`; attribute values escape `&`, `<`,
`"`; an element with no content serializes self-closing. -/

/-- Escape one character of text content. -/
def escTextChar (c : Char) : List Char :=
  if c = '&' then "&amp;".data
  else if c = '<' then "&lt;".data
  else if c = '>' then "&gt;".data
  else [c]

/-- Escape one character of an attribute value. -/
def escAttrChar (c : Char) : List Char :=
  if c = '&' then "&amp;".data
  else if c = '<' then "&lt;".data
  else if c = '"' then "&quot;".data
  else [c]

/-- Serialize an attribute list as ` name="value"` pieces, in order. -/
def serializeAttrs (attrs : List (String × String)) : String :=
  attrs.foldl
    (fun acc p => acc ++ " " ++ p.1 ++ "=\"" ++ String.mk (p.2.data.flatMap escAttrChar) ++ "\"")
    ""

mutual

/-- Serialize one node. -/
def serializeN : Node → String
  | .text s => String.mk (s.data.flatMap escTextChar)
  | .elem t a c =>
    if c.isEmpty then "<" ++ t ++ serializeAttrs a ++ "/>"
    else "<" ++ t ++ serializeAttrs a ++ ">" ++ serializeL c ++ "</" ++ t ++ ">"

/-- Serialize a list of siblings. -/
def serializeL : List Node → String
  | [] => ""
  | n :: rest => serializeN n ++ serializeL rest

end

/-- The XML declaration prepended by `_serialize_root`. -/
def XML_DECL : String := "<?xml version=\"1.0\" encoding=\"UTF-8\"?>\n"

/-- List form of `str.startswith` (the library version does not reduce
in the kernel). -/
def startsWithL : List Char → List Char → Bool
  | [], _ => true
  | _ :: _, [] => false
  | p :: ps, c :: cs => p = c && startsWithL ps cs

/-- Model of `_serialize_root` (expander.py lines 378-388): serialize
without a declaration, then prepend the canonical declaration unless the
output already starts with one (it never does, since `tostring` is
called with `xml_declaration=False`). -/
def serialize_root (root : Node) : String :=
  let out := serializeN root
  if startsWithL "<?xml".data ((pyStripL out.data).map Char.toLower) then out
  else XML_DECL ++ out

example : serializeN (.elem "root" [] [.text "a&b", .elem "hi" [("x", "1")] []])
    = "<root>a&amp;b<hi x=\"1\"/></root>" := by decide


/-! ## Parsing

Model of `etree.fromstring` for well-formed documents of the fragment
used here (elements, attributes, character data, the five predefined
entities, an optional XML declaration).  Unparseable input is `none`;
comments, processing instructions, CDATA and doctypes are outside the
fragment.  Fuel-indexed recursion bounds the descent by the input
length. -/

/-- Characters allowed in an element or attribute name in the fragment. -/
def isNameChar (c : Char) : Bool :=
  c.isAlphanum || c = '_' || c = '-' || c = '.' || c = ':'

/-- The five predefined XML entities. -/
def entityTab : List (List Char × Char) :=
  [("amp".data, '&'), ("lt".data, '<'), ("gt".data, '>'),
   ("quot".data, '"'), ("apos".data, '\'')]

/-- Parse character data up to the next `<` or end of input, decoding
entities. -/
def parseText : Nat → List Char → Option (List Char × List Char)
  | 0, _ => none
  | _, [] => some ([], [])
  | fuel + 1, c :: rest =>
    if c = '<' then some ([], c :: rest)
    else if c = '&' then
      let ent := rest.takeWhile (fun d => !(d = ';'))
      match rest.dropWhile (fun d => !(d = ';')) with
      | _ :: rest2 =>
        match entityTab.find? (fun p => p.1 = ent) with
        | some p => (parseText fuel rest2).map (fun r => (p.2 :: r.1, r.2))
        | none => none
      | [] => none
    else (parseText fuel rest).map (fun r => (c :: r.1, r.2))

/-- Parse a whitespace-separated attribute list, stopping before `/>` or
`>`. -/
def parseAttrList : Nat → List Char → Option (List (String × String) × List Char)
  | 0, _ => none
  | fuel + 1, l =>
    let l1 := l.dropWhile isPyWs
    match l1 with
    | [] => some ([], [])
    | c :: _ =>
      if isNameChar c then
        let nm := l1.takeWhile isNameChar
        match l1.dropWhile isNameChar with
        | '=' :: q :: r2 =>
          if q = '"' || q = '\'' then
            let v := r2.takeWhile (fun d => !(d = q))
            match r2.dropWhile (fun d => !(d = q)) with
            | _ :: r3 =>
              (parseAttrList fuel r3).map
                (fun res => ((String.mk nm, String.mk v) :: res.1, res.2))
            | [] => none
          else none
        | _ => none
      else some ([], l1)

mutual

/-- Parse one element starting at `<name`. -/
def parseElem : Nat → List Char → Option (Node × List Char)
  | 0, _ => none
  | fuel + 1, l =>
    match l with
    | '<' :: r1 =>
      let nm := r1.takeWhile isNameChar
      if nm.isEmpty then none
      else
        match parseAttrList fuel (r1.dropWhile isNameChar) with
        | none => none
        | some (attrs, r3) =>
          match r3 with
          | '/' :: '>' :: r4 => some (.elem (String.mk nm) attrs [], r4)
          | '>' :: r4 =>
            match parseContent fuel r4 with
            | none => none
            | some (children, r5) =>
              match r5 with
              | '<' :: '/' :: r6 =>
                let nm2 := r6.takeWhile isNameChar
                match (r6.dropWhile isNameChar).dropWhile isPyWs with
                | '>' :: r8 =>
                  if nm2 = nm then some (.elem (String.mk nm) attrs children, r8)
                  else none
                | _ => none
              | _ => none
          | _ => none
    | _ => none

/-- Parse mixed content (text and child elements) until a closing tag or
end of input. -/
def parseContent : Nat → List Char → Option (List Node × List Char)
  | 0, _ => none
  | fuel + 1, l =>
    match parseText fuel l with
    | none => none
    | some (txt, r1) =>
      let pre : List Node := if txt.isEmpty then [] else [.text (String.mk txt)]
      match r1 with
      | '<' :: '/' :: _ => some (pre, r1)
      | '<' :: _ =>
        match parseElem fuel r1 with
        | none => none
        | some (n, r2) =>
          match parseContent fuel r2 with
          | none => none
          | some (rest, r3) => some (pre ++ n :: rest, r3)
      | [] => some (pre, [])
      | _ => none

end

/-- Model of `etree.fromstring(xml_source)` on the fragment: skip an
optional XML declaration and surrounding whitespace, parse the root
element, and require only whitespace after it. -/
def parseXml (s : String) : Option Node :=
  let l0 := s.data.dropWhile isPyWs
  let l1 :=
    if l0.take 5 = "<?xml".data then
      ((l0.drop 5).dropWhile (fun c => !(c = '>'))).drop 1
    else l0
  match parseElem (2 * s.length + 8) (l1.dropWhile isPyWs) with
  | some (n, rest) => if (rest.dropWhile isPyWs).isEmpty then some n else none
  | none => none

example : parseXml "<root/>" = some (.elem "root" [] []) := by decide
example : parseXml "<?xml version=\"1.0\"?>\n<root><p>a&amp;b</p></root>"
    = some (.elem "root" [] [.elem "p" [] [.text "a&b"]]) := by decide
example : parseXml "<root><p>x<hi rend=\"sup\">y</hi>z</p></root>"
    = some (.elem "root" []
        [.elem "p" [] [.text "x", .elem "hi" [("rend", "sup")] [.text "y"], .text "z"]]) := by
  decide

/-- Model of a single block-mode pass of `_expand_once` (expander.py
lines 509-630, the branch below the whole-document shortcut): parse,
replace each block's content by the transformed text, serialize.  The
per-block transformation (`_expand_text_block`, an LLM or local backend
call; the identity when `dry_run`) is the parameter `f`.  The sequential
and parallel code paths apply exactly this tree transformation — raw
block texts are captured before any mutation and blocks are disjoint
subtrees — so the pass result does not depend on the scheduling, which
is modelled separately below. -/
def expand_once (tags : List String) (f : String → String) (src : String) : Option String :=
  (parseXml src).map (fun root => serialize_root (expandNode tags f root))

example : expand_once TEXT_BLOCK_TAGS (fun _ => "the") "<root><p>y^e</p></root>"
    = some (XML_DECL ++ "<root><p>the</p></root>") := by decide

/-! ## The ordered-apply scheduler

Model of the parallel branch of `_expand_once` (expander.py lines
599-623).  Workers complete in an arbitrary order; the coordinating loop
records each completed result in a buffer indexed by ordinal
(`results[i] = ...`) and advances a cursor (`next_to_apply`), applying
and reporting buffered results only while they are contiguous from the
cursor.  The model keeps the received-flags buffer and the trace of
ordinals in the order they were applied / reported via
`progress_callback`; the text of each result plays no role in the
ordering property and is omitted. -/

structure SchedState where
  next : Nat
  received : List Bool
  trace : List Nat
deriving Repr, DecidableEq

/-- The inner `while next_to_apply < total and results[next_to_apply] is
not None` loop: apply and report contiguously buffered results.  Fuel
bounds the walk; `received.length` steps always suffice. -/
def drainFuel : Nat → SchedState → SchedState
  | 0, s => s
  | fuel + 1, s =>
    if s.received.getD s.next false then
      drainFuel fuel
        { next := s.next + 1, received := s.received, trace := s.trace ++ [s.next] }
    else s

/-- One iteration of the `as_completed` loop: result `i` arrives, is
buffered, and the contiguous buffered results are applied in order. -/
def applyArrival (s : SchedState) (i : Nat) : SchedState :=
  drainFuel s.received.length { s with received := s.received.set i true }

/-- Run a whole pass of `n` blocks whose transformations complete in the
order given by `arrivals`. -/
def runSched (n : Nat) (arrivals : List Nat) : SchedState :=
  arrivals.foldl applyArrival { next := 0, received := List.replicate n false, trace := [] }

example : (runSched 3 [2, 0, 1]).trace = [0, 1, 2] := by decide
example : (runSched 3 [2, 0]).trace = [0] := by decide

/-! ## Example pairs: selection, layering, and the learned pool

Models of `examples_io.py`.  An `ExamplePair` carries the `diplomatic`
and `full` strings and the optional `pro` flag (absent = `False`). -/

structure ExamplePair where
  diplomatic : String
  full : String
  pro : Bool
deriving Repr, DecidableEq

/-- The sort key of `select_examples_for_prompt` (examples_io.py line
70): length in characters of the stripped diplomatic text. -/
def diplomaticKeyLen (e : ExamplePair) : Nat := (pyStrip e.diplomatic).length

/-- Stable insertion into a descending-by-key list: an element goes
before the first strictly smaller key, after equal keys already placed
later in the original list. -/
def insertDescBy (key : ExamplePair → Nat) (x : ExamplePair) : List ExamplePair → List ExamplePair
  | [] => [x]
  | y :: rest => if key y ≤ key x then x :: y :: rest else y :: insertDescBy key x rest

/-- Stable descending sort by key.  `heapq.nlargest(n, it, key)` is
documented as equivalent to `sorted(it, key=key, reverse=True)[:n]`;
Python's sort is stable and `reverse=True` preserves the original order
of equal keys, which this insertion sort reproduces. -/
def sortDescBy (key : ExamplePair → Nat) : List ExamplePair → List ExamplePair
  | [] => []
  | x :: rest => insertDescBy key x (sortDescBy key rest)

/-- Model of `select_examples_for_prompt` (examples_io.py lines 54-71).
`none` is Python `max_examples=None`.  The `most-recent` branch models
the Python slice `examples[-max_examples:]`, which is the whole list
when `max_examples == 0`. -/
def select_examples_for_prompt
    (examples : List ExamplePair) (max_examples : Option Nat) (strategy : String) :
    List ExamplePair :=
  if examples.isEmpty then []
  else
    match max_examples with
    | none => examples
    | some cap =>
      if examples.length ≤ cap then examples
      else if strategy = "most-recent" then
        if cap = 0 then examples else examples.drop (examples.length - cap)
      else (sortDescBy diplomaticKeyLen examples).take cap

example :
    select_examples_for_prompt
      [⟨"a", "", false⟩, ⟨"abcdef", "", false⟩, ⟨"abc", "", false⟩]
      (some 1) "longest-first" = [⟨"abcdef", "", false⟩] := by decide

/-! ### Files and layered loading -/

/-- One entry of a parsed JSON array: a JSON object with its optional
`diplomatic` / `full` string fields and truthiness of `pro`, or a
non-object entry. -/
inductive JEntry where
  | obj (dOpt fOpt : Option String) (pro : Bool)
  | other
deriving Repr, DecidableEq

/-- A parsed JSON document: an array of entries, or any non-array value. -/
inductive JVal where
  | arr (items : List JEntry)
  | nonList
deriving Repr, DecidableEq

/-- Outcome of reading and JSON-parsing one file: absent, present but
malformed JSON, or parsed. -/
inductive FileState where
  | missing
  | malformed
  | parsed (v : JVal)
deriving Repr, DecidableEq

/-- Model of `_parse_pairs` (examples_io.py lines 80-89): keep the
object entries that have both `diplomatic` and `full`; `pro` is kept
only when truthy. -/
def parse_pairs (v : JVal) : List ExamplePair :=
  match v with
  | .nonList => []
  | .arr items =>
    items.filterMap fun it =>
      match it with
      | .obj (some d) (some f) pro => some ⟨d, f, pro⟩
      | _ => none

/-- Model of `load_learned` (examples_io.py lines 182-199): a missing
file or malformed JSON gives no pairs; a parsed file gives the validated
pairs with the pro-derived ones first (`pairs.sort(key=lambda x: (0 if
x.get("pro") else 1))` is a stable two-bucket sort, i.e. a stable
partition).  The mtime cache is invisible to a single call and omitted. -/
def load_learned (fs : FileState) : List ExamplePair :=
  match fs with
  | .missing => []
  | .malformed => []
  | .parsed v =>
    let pairs := parse_pairs v
    pairs.filter (fun p => p.pro) ++ pairs.filter (fun p => !p.pro)

/-- Model of the `add_layer` closure of `load_examples` (examples_io.py
lines 146-155): fold a layer into the `(seen keys, output)` state,
skipping blank diplomatic texts and appearance keys already seen, and
appending stripped two-field pairs otherwise. -/
def add_layer (st : List String × List ExamplePair) (pairs : List ExamplePair) :
    List String × List ExamplePair :=
  pairs.foldl
    (fun st e =>
      let d := pyStrip e.diplomatic
      if d = "" then st
      else
        let k := appearance_key d
        if st.1.contains k then st
        else (st.1 ++ [k], st.2 ++ [⟨d, pyStrip e.full, false⟩]))
    st

/-- Model of `load_examples` (examples_io.py lines 135-179).  The three
layers are given by their file states (the personal layer by its loaded
pairs, since `load_personal_learned` lives in `learning.py` and any
exception there is swallowed).  Malformed JSON at the project path
raises `ValueError`, modelled as `Except.error`. -/
def load_examples (project learnedFile : FileState) (personal : List ExamplePair)
    (include_learned include_personal_learned : Bool) :
    Except String (List ExamplePair) := do
  let st0 : List String × List ExamplePair := ([], [])
  let st1 ←
    match project with
    | .missing => pure st0
    | .malformed => throw "Invalid JSON in project examples file"
    | .parsed v => pure (add_layer st0 (parse_pairs v))
  let st2 := if include_learned then add_layer st1 (load_learned learnedFile) else st1
  let st3 := if include_personal_learned then add_layer st2 personal else st2
  pure st3.2

/-! ### The learned-pool merge -/

/-- One pool entry: the stored (stripped) diplomatic and full texts and
the pro flag, keyed by appearance key. -/
structure PoolEntry where
  d : String
  f : String
  pro : Bool
deriving Repr, DecidableEq

/-- Look a key up in the (insertion-ordered) pool. -/
def poolLookup (m : List (String × PoolEntry)) (k : String) : Option PoolEntry :=
  (m.find? (fun p => p.1 = k)).map (fun p => p.2)

/-- Python dict assignment: replace in place when the key exists, append
otherwise. -/
def poolSet (m : List (String × PoolEntry)) (k : String) (v : PoolEntry) :
    List (String × PoolEntry) :=
  if (m.find? (fun p => p.1 = k)).isSome then
    m.map (fun p => if p.1 = k then (k, v) else p)
  else m ++ [(k, v)]

/-- Model of the set `local` built by `add_learned_pairs` (examples_io.py
line 227): appearance keys of the non-blank project diplomatic forms. -/
def localKeySet (local_diplomatic : List String) : List String :=
  (local_diplomatic.filter (fun x => !(pyStrip x = ""))).map appearance_key

/-- Model of one iteration of the merge loop of `add_learned_pairs`
(examples_io.py lines 230-250) over the state (pool, added count):
skip blank or unchanged pairs; drop pairs whose key is local
(authoritative); insert new keys; let a pro pair overwrite a non-pro
entry; never let a non-pro pair overwrite a pro entry; otherwise
overwrite in place without counting. -/
def add_learned_step (is_pro : Bool) (localKeys : List String)
    (st : List (String × PoolEntry) × Nat) (pair : ExamplePair) :
    List (String × PoolEntry) × Nat :=
  let d := pyStrip pair.diplomatic
  let f := pyStrip pair.full
  if d = "" || d = f then st
  else
    let k := appearance_key d
    if localKeys.contains k then st
    else
      match poolLookup st.1 k with
      | none => (poolSet st.1 k ⟨d, f, is_pro⟩, st.2 + 1)
      | some old =>
        if is_pro && !old.pro then (poolSet st.1 k ⟨d, f, true⟩, st.2 + 1)
        else if !is_pro && old.pro then st
        else (poolSet st.1 k ⟨d, f, is_pro⟩, st.2)

/-- Model of the merge phase of `add_learned_pairs` (examples_io.py lines
202-250) from an existing pool: fold the incoming pairs through
`add_learned_step`; returns the updated pool and the `added` count.
`is_pro` is `_is_pro_model(model)`; the trailing eviction and file write
(lines 252-272) are not part of any claim here. -/
def add_learned_pairs (pairs : List ExamplePair) (pool : List (String × PoolEntry))
    (is_pro : Bool) (localKeys : List String) : List (String × PoolEntry) × Nat :=
  pairs.foldl (add_learned_step is_pro localKeys) (pool, 0)

/-! ## Verified properties -/

/-! ### C9 — malformed JSON handling is asymmetric -/

/-- C9: if the project examples file exists but holds malformed JSON,
`load_examples` surfaces an error (Python raises `ValueError`), whatever
the other layers hold; if a learned-pairs file holds malformed JSON,
`load_learned` returns the empty list and raises nothing. -/
theorem malformed_json_asymmetry :
    (∀ (learnedFile : FileState) (personal : List ExamplePair)
       (include_learned include_personal_learned : Bool),
       load_examples .malformed learnedFile personal
           include_learned include_personal_learned =
         Except.error "Invalid JSON in project examples file") ∧
    load_learned .malformed = [] := by
  exact ⟨fun _ _ _ _ => rfl, rfl⟩

/-! ### C4 — learned-pool merge precedence -/

/-- Looking up the key just set returns the value just set. -/
theorem poolLookup_poolSet (m : List (String × PoolEntry)) (k : String) (v : PoolEntry) :
    poolLookup (poolSet m k v) k = some v := by
  unfold poolSet
  split
  · rename_i hfound
    unfold poolLookup
    induction m with
    | nil => simp at hfound
    | cons p rest ih =>
      by_cases hp : p.1 = k
      · simp [hp]
      · have hpred : ¬((fun q : String × PoolEntry => decide (q.1 = k)) p = true) := by
          simp [hp]
        rw [List.find?_cons_of_neg rest hpred] at hfound
        simp only [List.map_cons, if_neg hp]
        rw [List.find?_cons_of_neg (List.map (fun p => if p.1 = k then (k, v) else p) rest) hpred]
        exact ih hfound
  · rename_i hnone
    unfold poolLookup
    rw [List.find?_append]
    have hm : List.find? (fun q : String × PoolEntry => q.1 = k) m = none := by
      rcases h : List.find? (fun q : String × PoolEntry => q.1 = k) m with _ | q
      · rfl
      · rw [h] at hnone; simp at hnone
    simp [hm, List.find?]

/-- C4: per appearance key, the merge loop of `add_learned_pairs`
enforces: (a) an incoming valid pair from a pro source overwrites a
stored non-pro entry; (b) an incoming pair from a non-pro source leaves
the pool untouched when the stored entry is pro; (c) an incoming pair
whose key matches an authoritative project diplomatic form is dropped,
leaving pool and count unchanged. -/
theorem add_learned_merge_precedence :
    (∀ (m : List (String × PoolEntry)) (a : Nat) (localKeys : List String)
       (pair : ExamplePair) (old : PoolEntry),
       pyStrip pair.diplomatic ≠ "" →
       pyStrip pair.diplomatic ≠ pyStrip pair.full →
       localKeys.contains (appearance_key (pyStrip pair.diplomatic)) = false →
       poolLookup m (appearance_key (pyStrip pair.diplomatic)) = some old →
       old.pro = false →
       poolLookup (add_learned_step true localKeys (m, a) pair).1
           (appearance_key (pyStrip pair.diplomatic)) =
         some ⟨pyStrip pair.diplomatic, pyStrip pair.full, true⟩) ∧
    (∀ (m : List (String × PoolEntry)) (a : Nat) (localKeys : List String)
       (pair : ExamplePair) (old : PoolEntry),
       poolLookup m (appearance_key (pyStrip pair.diplomatic)) = some old →
       old.pro = true →
       (add_learned_step false localKeys (m, a) pair).1 = m) ∧
    (∀ (m : List (String × PoolEntry)) (a : Nat) (localKeys : List String)
       (pair : ExamplePair) (is_pro : Bool),
       localKeys.contains (appearance_key (pyStrip pair.diplomatic)) = true →
       add_learned_step is_pro localKeys (m, a) pair = (m, a)) := by
  refine ⟨?_, ?_, ?_⟩
  · intro m a localKeys pair old h1 h2 h3 h4 h5
    have hmem : appearance_key (pyStrip pair.diplomatic) ∉ localKeys := by
      simpa using h3
    unfold add_learned_step
    simp [h1, h2, hmem, h4, h5, poolLookup_poolSet]
  · intro m a localKeys pair old h4 h5
    unfold add_learned_step
    by_cases h1 : pyStrip pair.diplomatic = ""
    · simp [h1]
    · by_cases h2 : pyStrip pair.diplomatic = pyStrip pair.full
      · simp [h1, h2]
      · by_cases hmem : appearance_key (pyStrip pair.diplomatic) ∈ localKeys
        · simp [h1, h2, hmem]
        · simp [h1, h2, hmem, h4, h5]
  · intro m a localKeys pair is_pro h3
    have hmem : appearance_key (pyStrip pair.diplomatic) ∈ localKeys := by
      simpa using h3
    unfold add_learned_step
    by_cases h1 : pyStrip pair.diplomatic = ""
    · simp [h1]
    · by_cases h2 : pyStrip pair.diplomatic = pyStrip pair.full
      · simp [h1, h2]
      · simp [h1, h2, hmem]

/-- Witness for C4, mirroring the specification scenario: the pool holds
a non-pro entry for key `amat`, `amat` is also an authoritative project
form, and learning the non-pro candidate (`amat`, `amabat`) leaves pool
and count unchanged. -/
theorem add_learned_merge_precedence_witness :
    ([appearance_key "amat"].contains
        (appearance_key (pyStrip (ExamplePair.mk "amat" "amabat" false).diplomatic)) = true) ∧
    add_learned_step false [appearance_key "amat"]
        ([(appearance_key "amat", ⟨"amat", "amat est", false⟩)], 0)
        ⟨"amat", "amabat", false⟩ =
      ([(appearance_key "amat", ⟨"amat", "amat est", false⟩)], 0) :=
  ⟨by decide,
   add_learned_merge_precedence.2.2
     [(appearance_key "amat", ⟨"amat", "amat est", false⟩)] 0
     [appearance_key "amat"] ⟨"amat", "amabat", false⟩ false (by decide)⟩

/-! ### C6 — example selection -/

theorem mem_insertDescBy (key : ExamplePair → Nat) (x : ExamplePair) (l : List ExamplePair) :
    ∀ w ∈ insertDescBy key x l, w = x ∨ w ∈ l := by
  induction l with
  | nil => intro w hw; simp [insertDescBy] at hw; simp [hw]
  | cons y rest ih =>
    intro w hw
    unfold insertDescBy at hw
    split at hw
    · rcases List.mem_cons.mp hw with h | h
      · exact Or.inl h
      · exact Or.inr h
    · rcases List.mem_cons.mp hw with h | h
      · exact Or.inr (by simp [h])
      · rcases ih w h with h' | h'
        · exact Or.inl h'
        · exact Or.inr (by simp [h'])

theorem perm_insertDescBy (key : ExamplePair → Nat) (x : ExamplePair) (l : List ExamplePair) :
    (insertDescBy key x l).Perm (x :: l) := by
  induction l with
  | nil => simp [insertDescBy]
  | cons y rest ih =>
    unfold insertDescBy
    split
    · exact List.Perm.refl _
    · exact (ih.cons y).trans (List.Perm.swap x y rest)

theorem pairwise_insertDescBy (key : ExamplePair → Nat) (x : ExamplePair) (l : List ExamplePair)
    (h : List.Pairwise (fun a b => key b ≤ key a) l) :
    List.Pairwise (fun a b => key b ≤ key a) (insertDescBy key x l) := by
  induction l with
  | nil => simp [insertDescBy]
  | cons y rest ih =>
    rcases List.pairwise_cons.mp h with ⟨hy, hrest⟩
    unfold insertDescBy
    split
    · rename_i hxy
      refine List.pairwise_cons.mpr ⟨?_, h⟩
      intro w hw
      rcases List.mem_cons.mp hw with h' | h'
      · subst h'; exact hxy
      · exact le_trans (hy w h') hxy
    · rename_i hxy
      push_neg at hxy
      refine List.pairwise_cons.mpr ⟨?_, ih hrest⟩
      intro w hw
      rcases mem_insertDescBy key x rest w hw with h' | h'
      · subst h'; omega
      · exact hy w h'

theorem perm_sortDescBy (key : ExamplePair → Nat) (l : List ExamplePair) :
    (sortDescBy key l).Perm l := by
  induction l with
  | nil => simp [sortDescBy]
  | cons x rest ih =>
    exact (perm_insertDescBy key x (sortDescBy key rest)).trans (List.Perm.cons x ih)

theorem pairwise_sortDescBy (key : ExamplePair → Nat) (l : List ExamplePair) :
    List.Pairwise (fun a b => key b ≤ key a) (sortDescBy key l) := by
  induction l with
  | nil => simp [sortDescBy]
  | cons x rest ih => exact pairwise_insertDescBy key x _ ih

/-- C6, amended: with no cap or a cap at least the pool size the pool is
returned unchanged; `most-recent` returns the length-`cap` suffix for
every cap from 1 to the pool size minus one, but returns the whole pool
at cap 0 (`examples[-0:]` is the whole list); `longest-first` returns
`cap` pairs such that every returned pair's stripped diplomatic length
is at least that of every pair left out, and on the specification's
example returns exactly the `abcdef` pair. -/
theorem select_examples_spec :
    (∀ (examples : List ExamplePair) (strategy : String),
       select_examples_for_prompt examples none strategy = examples) ∧
    (∀ (examples : List ExamplePair) (cap : Nat) (strategy : String),
       examples.length ≤ cap →
       select_examples_for_prompt examples (some cap) strategy = examples) ∧
    (∀ (examples : List ExamplePair) (cap : Nat),
       1 ≤ cap → cap < examples.length →
       select_examples_for_prompt examples (some cap) "most-recent" =
           examples.drop (examples.length - cap) ∧
       (select_examples_for_prompt examples (some cap) "most-recent").length = cap ∧
       select_examples_for_prompt examples (some cap) "most-recent" <:+ examples) ∧
    (∀ examples : List ExamplePair, examples ≠ [] →
       select_examples_for_prompt examples (some 0) "most-recent" = examples) ∧
    (∀ (examples : List ExamplePair) (cap : Nat), cap < examples.length →
       ∃ rest,
         ((select_examples_for_prompt examples (some cap) "longest-first") ++ rest).Perm
             examples ∧
         (select_examples_for_prompt examples (some cap) "longest-first").length = cap ∧
         ∀ p ∈ select_examples_for_prompt examples (some cap) "longest-first",
           ∀ q ∈ rest, diplomaticKeyLen q ≤ diplomaticKeyLen p) ∧
    select_examples_for_prompt
        [⟨"a", "", false⟩, ⟨"abcdef", "", false⟩, ⟨"abc", "", false⟩]
        (some 1) "longest-first" = [⟨"abcdef", "", false⟩] := by
  refine ⟨?_, ?_, ?_, ?_, ?_, by decide⟩
  · intro examples strategy
    cases examples <;> simp [select_examples_for_prompt]
  · intro examples cap strategy h
    cases examples with
    | nil => simp [select_examples_for_prompt]
    | cons e rest =>
      simp only [select_examples_for_prompt, List.isEmpty_cons, Bool.false_eq_true,
        if_false, if_pos h]
  · intro examples cap h1 hlt
    have hne : ¬examples.isEmpty := by
      cases examples
      · simp at hlt
      · simp
    have hnotall : ¬examples.length ≤ cap := by omega
    have hc0 : ¬cap = 0 := by omega
    have hsel : select_examples_for_prompt examples (some cap) "most-recent" =
        examples.drop (examples.length - cap) := by
      simp [select_examples_for_prompt, hne, hnotall, hc0]
    refine ⟨hsel, ?_, ?_⟩
    · rw [hsel, List.length_drop]; omega
    · rw [hsel]; exact List.drop_suffix _ _
  · intro examples hne
    have hne' : ¬examples.isEmpty := by
      cases examples
      · simp at hne
      · simp
    have hlen : ¬examples.length ≤ 0 := by
      cases examples
      · simp at hne
      · simp
    simp [select_examples_for_prompt, hne', hlen]
  · intro examples cap hlt
    have hne : ¬examples.isEmpty := by
      cases examples
      · simp at hlt
      · simp
    have hnotall : ¬examples.length ≤ cap := by omega
    have hsel : select_examples_for_prompt examples (some cap) "longest-first" =
        (sortDescBy diplomaticKeyLen examples).take cap := by
      simp [select_examples_for_prompt, hne, hnotall]
    refine ⟨(sortDescBy diplomaticKeyLen examples).drop cap, ?_, ?_, ?_⟩
    · rw [hsel, List.take_append_drop]
      exact perm_sortDescBy diplomaticKeyLen examples
    · rw [hsel, List.length_take, (perm_sortDescBy diplomaticKeyLen examples).length_eq]
      omega
    · intro p hp q hq
      rw [hsel] at hp
      have hpw := pairwise_sortDescBy diplomaticKeyLen examples
      rw [← List.take_append_drop cap (sortDescBy diplomaticKeyLen examples)] at hpw
      exact (List.pairwise_append.mp hpw).2.2 p hp q hq

/-- Counterexample to C6 as stated: at cap 0 (which satisfies
0 ≤ cap < len(pairs)) with strategy `most-recent` the code returns the
whole pool rather than the last 0 pairs, because the Python slice
`examples[-0:]` is `examples[0:]`. -/
theorem select_cap_zero_counterexample :
    select_examples_for_prompt [⟨"a", "b", false⟩, ⟨"c", "d", false⟩]
        (some 0) "most-recent" ≠ [] := by decide

/-- Witness for C6 (amended): `most-recent` with cap 2 on a three-pair
pool returns the last two pairs. -/
theorem select_examples_spec_witness :
    1 ≤ 2 ∧
    2 < ([⟨"a", "", false⟩, ⟨"bc", "", false⟩, ⟨"d", "", false⟩] : List ExamplePair).length ∧
    select_examples_for_prompt
        [⟨"a", "", false⟩, ⟨"bc", "", false⟩, ⟨"d", "", false⟩] (some 2) "most-recent" =
      List.drop
        (([⟨"a", "", false⟩, ⟨"bc", "", false⟩, ⟨"d", "", false⟩] : List ExamplePair).length - 2)
        [⟨"a", "", false⟩, ⟨"bc", "", false⟩, ⟨"d", "", false⟩] :=
  ⟨by decide, by decide,
   (select_examples_spec.2.2.1
     [⟨"a", "", false⟩, ⟨"bc", "", false⟩, ⟨"d", "", false⟩] 2 (by decide) (by decide)).1⟩

/-! ### C1 — out-of-order completion, in-order apply -/

theorem drainFuel_received (fuel : Nat) (s : SchedState) :
    (drainFuel fuel s).received = s.received := by
  induction fuel generalizing s with
  | zero => rfl
  | succ fuel ih =>
    unfold drainFuel
    split
    · exact ih _
    · rfl

theorem drainFuel_range (fuel : Nat) (s : SchedState) (h : s.trace = List.range s.next) :
    (drainFuel fuel s).trace = List.range (drainFuel fuel s).next := by
  induction fuel generalizing s with
  | zero => exact h
  | succ fuel ih =>
    unfold drainFuel
    split
    · exact ih _ (by simp [h, List.range_succ])
    · exact h

theorem drainFuel_next_le (fuel : Nat) (s : SchedState) (h : s.next ≤ s.received.length) :
    (drainFuel fuel s).next ≤ s.received.length := by
  induction fuel generalizing s with
  | zero => exact h
  | succ fuel ih =>
    unfold drainFuel
    split
    · rename_i hget
      have hlt : s.next < s.received.length := by
        by_contra hge
        rw [List.getD_eq_default _ _ (by omega)] at hget
        simp at hget
      exact ih _ (by simpa using hlt)
    · exact h

theorem drainFuel_stop (fuel : Nat) (s : SchedState)
    (h : s.received.length ≤ fuel + s.next) :
    (drainFuel fuel s).received.getD (drainFuel fuel s).next false = false := by
  induction fuel generalizing s with
  | zero =>
    unfold drainFuel
    exact List.getD_eq_default _ _ (by omega)
  | succ fuel ih =>
    unfold drainFuel
    split
    · exact ih _ (by simpa using Nat.le_trans h (by omega))
    · rename_i hget
      simpa using hget

/-- The invariant maintained while arrivals are folded through the
scheduler: the applied/reported trace is exactly the contiguous range
below the cursor, the buffer length is fixed, a flag is set exactly for
the arrivals seen so far, the cursor never passes a cleared flag, and
the cursor stays within bounds. -/
def SchedInv (n : Nat) (done : List Nat) (s : SchedState) : Prop :=
  s.trace = List.range s.next ∧
  s.received.length = n ∧
  (∀ j, s.received.getD j false = true ↔ j ∈ done ∧ j < n) ∧
  s.received.getD s.next false = false ∧
  s.next ≤ n

theorem applyArrival_inv (n : Nat) (done : List Nat) (s : SchedState) (i : Nat)
    (h : SchedInv n done s) : SchedInv n (done ++ [i]) (applyArrival s i) := by
  obtain ⟨h1, h2, h3, h4, h5⟩ := h
  set s' : SchedState := { s with received := s.received.set i true } with hs'
  have hlen' : s'.received.length = n := by simp [hs', h2]
  have hmem : ∀ j, s'.received.getD j false = true ↔ j ∈ done ++ [i] ∧ j < n := by
    intro j
    have : s'.received.getD j false = ((s.received.set i true)[j]?).getD false := by
      simp [hs', List.getD]
    rw [this, List.getElem?_set]
    by_cases hij : i = j
    · subst hij
      by_cases hin : i < s.received.length
      · simp [hin, h2 ▸ hin]
      · simp only [if_pos rfl, if_neg hin]
        rw [h2] at hin
        constructor
        · intro hf; simp at hf
        · intro ⟨_, hlt⟩; exact absurd hlt hin
    · simp only [if_neg hij]
      have : (s.received[j]?).getD false = s.received.getD j false := by
        simp [List.getD]
      rw [this, h3 j]
      constructor
      · intro ⟨hj, hlt⟩; exact ⟨by simp [hj], hlt⟩
      · intro ⟨hj, hlt⟩
        rcases List.mem_append.mp hj with hj | hj
        · exact ⟨hj, hlt⟩
        · simp at hj; exact absurd hj.symm hij
  refine ⟨?_, ?_, ?_, ?_, ?_⟩
  · exact drainFuel_range _ _ h1
  · rw [applyArrival, drainFuel_received]; exact hlen'
  · intro j
    rw [applyArrival, drainFuel_received]
    exact hmem j
  · have hstop := drainFuel_stop s.received.length s'
      (by simp only [hs', List.length_set]; omega)
    rw [applyArrival, ← hs']
    exact hstop
  · have hsnext : s'.next ≤ s'.received.length := by
      simp only [hs', List.length_set]
      omega
    have hb := drainFuel_next_le s.received.length s' hsnext
    rw [applyArrival, ← hs']
    have hn : s'.received.length = n := hlen'
    omega

theorem foldl_applyArrival_inv (n : Nat) (arrivals : List Nat) :
    ∀ (done : List Nat) (s : SchedState), SchedInv n done s →
      SchedInv n (done ++ arrivals) (arrivals.foldl applyArrival s) := by
  induction arrivals with
  | nil => intro done s h; simpa using h
  | cons i rest ih =>
    intro done s h
    have h' := applyArrival_inv n done s i h
    have := ih (done ++ [i]) (applyArrival s i) h'
    simpa using this

theorem schedInit_inv (n : Nat) :
    SchedInv n [] { next := 0, received := List.replicate n false, trace := [] } := by
  refine ⟨rfl, by simp, ?_, ?_, Nat.zero_le n⟩
  · intro j
    constructor
    · intro hj
      by_cases hlt : j < n
      · rw [List.getD_eq_getElem _ _ (by simpa using hlt)] at hj
        simp at hj
      · rw [List.getD_eq_default _ _ (by simpa using not_lt.mp hlt)] at hj
        simp at hj
    · intro ⟨hj, _⟩; simp at hj
  · cases n with
    | zero => rfl
    | succ m =>
      rw [List.getD_eq_getElem _ _ (by simp)]
      simp

/-- C1: however the per-block transformations complete — any permutation
of the block ordinals — the results are applied to the document and
reported through the progress callback in strictly ascending ordinal
order: the final trace is `0, 1, …, n-1`, and after every prefix of
completions the trace is exactly the contiguous range below the apply
cursor, so a result that arrived out of order sits buffered and
unreported until all lower ordinals have been applied. -/
theorem scheduler_in_order (n : Nat) (arrivals : List Nat)
    (hperm : arrivals.Perm (List.range n)) :
    (runSched n arrivals).trace = List.range n ∧
    ∀ k, (runSched n (arrivals.take k)).trace =
           List.range (runSched n (arrivals.take k)).next := by
  constructor
  · have hinv := foldl_applyArrival_inv n arrivals []
      { next := 0, received := List.replicate n false, trace := [] } (schedInit_inv n)
    obtain ⟨h1, h2, h3, h4, h5⟩ := hinv
    have hrun : runSched n arrivals =
        arrivals.foldl applyArrival
          { next := 0, received := List.replicate n false, trace := [] } := rfl
    set F := arrivals.foldl applyArrival
      { next := 0, received := List.replicate n false, trace := [] } with hF
    have hdone : ∀ j, j < n → j ∈ ([] : List Nat) ++ arrivals := by
      intro j hj
      simp only [List.nil_append]
      exact hperm.mem_iff.mpr (List.mem_range.mpr hj)
    have hnext : F.next = n := by
      by_contra hne
      have hlt : F.next < n := lt_of_le_of_ne h5 hne
      have htrue := (h3 F.next).mpr ⟨hdone _ hlt, hlt⟩
      rw [htrue] at h4
      exact absurd h4 (by simp)
    rw [hrun, h1, hnext]
  · intro k
    have hinv := foldl_applyArrival_inv n (arrivals.take k) []
      { next := 0, received := List.replicate n false, trace := [] } (schedInit_inv n)
    exact hinv.1

/-- Witness for C1: three blocks completing in the order 2, 0, 1 (a
permutation of 0..2) are applied and reported as 0, 1, 2. -/
theorem scheduler_in_order_witness :
    ([2, 0, 1] : List Nat).Perm (List.range 3) ∧
    (runSched 3 [2, 0, 1]).trace = List.range 3 :=
  ⟨by decide, (scheduler_in_order 3 [2, 0, 1] (by decide)).1⟩

/-! ### C7 — layered loading merges with first occurrence winning -/

/-- The appearance key of a stored pair. -/
def storedKey (p : ExamplePair) : String := appearance_key p.diplomatic

/-- The first pair of a layer sequence that is non-blank and has
appearance key `k`, cleaned the way `add_layer` stores pairs. -/
def firstOccByKey (pairs : List ExamplePair) (k : String) : Option ExamplePair :=
  (pairs.find? (fun e =>
      !(pyStrip e.diplomatic = "") && (appearance_key (pyStrip e.diplomatic) = k))).map
    (fun e => ⟨pyStrip e.diplomatic, pyStrip e.full, false⟩)

theorem add_layer_cons_blank (st : List String × List ExamplePair) (e : ExamplePair)
    (rest : List ExamplePair) (hd : pyStrip e.diplomatic = "") :
    add_layer st (e :: rest) = add_layer st rest := by
  simp [add_layer, hd]

theorem add_layer_cons_seen (st : List String × List ExamplePair) (e : ExamplePair)
    (rest : List ExamplePair) (hd : ¬pyStrip e.diplomatic = "")
    (hk : appearance_key (pyStrip e.diplomatic) ∈ st.1) :
    add_layer st (e :: rest) = add_layer st rest := by
  simp [add_layer, hd, hk]

theorem add_layer_cons_new (st : List String × List ExamplePair) (e : ExamplePair)
    (rest : List ExamplePair) (hd : ¬pyStrip e.diplomatic = "")
    (hk : appearance_key (pyStrip e.diplomatic) ∉ st.1) :
    add_layer st (e :: rest) =
      add_layer
        (st.1 ++ [appearance_key (pyStrip e.diplomatic)],
         st.2 ++ [⟨pyStrip e.diplomatic, pyStrip e.full, false⟩]) rest := by
  simp [add_layer, hd, hk]

theorem add_layer_inv (pairs : List ExamplePair) :
    ∀ st : List String × List ExamplePair,
      st.1 = st.2.map storedKey → st.1.Nodup →
      (add_layer st pairs).1 = (add_layer st pairs).2.map storedKey ∧
      (add_layer st pairs).1.Nodup := by
  induction pairs with
  | nil => intro st h1 h2; exact ⟨h1, h2⟩
  | cons e rest ih =>
    intro st h1 h2
    by_cases hd : pyStrip e.diplomatic = ""
    · rw [add_layer_cons_blank st e rest hd]; exact ih st h1 h2
    · by_cases hk : appearance_key (pyStrip e.diplomatic) ∈ st.1
      · rw [add_layer_cons_seen st e rest hd hk]; exact ih st h1 h2
      · rw [add_layer_cons_new st e rest hd hk]
        refine ih _ ?_ ?_
        · simp [h1, storedKey]
        · rw [List.nodup_append]
          refine ⟨h2, List.nodup_singleton _, ?_⟩
          intro a ha hb
          rw [List.mem_singleton] at hb
          subst hb
          exact hk ha

theorem add_layer_find (pairs : List ExamplePair) :
    ∀ (st : List String × List ExamplePair) (k : String),
      st.1 = st.2.map storedKey →
      (add_layer st pairs).2.find? (fun p => storedKey p = k) =
        ((st.2.find? (fun p => storedKey p = k)).or (firstOccByKey pairs k)) := by
  induction pairs with
  | nil =>
    intro st k h1
    simp [add_layer, firstOccByKey]
  | cons e rest ih =>
    intro st k h1
    by_cases hd : pyStrip e.diplomatic = ""
    · rw [add_layer_cons_blank st e rest hd, ih st k h1]
      have hocc : firstOccByKey (e :: rest) k = firstOccByKey rest k := by
        unfold firstOccByKey
        rw [List.find?_cons_of_neg _ (by simp [hd])]
      rw [hocc]
    · by_cases hk : appearance_key (pyStrip e.diplomatic) ∈ st.1
      · rw [add_layer_cons_seen st e rest hd hk, ih st k h1]
        by_cases hkk : appearance_key (pyStrip e.diplomatic) = k
        · -- the key is already in the output: both sides short-circuit
          have hsome : (st.2.find? (fun p => storedKey p = k)).isSome = true := by
            rw [List.find?_isSome]
            have hkmem : k ∈ st.2.map storedKey := by
              rw [← h1, ← hkk]; exact hk
            rcases List.mem_map.mp hkmem with ⟨p, hp, hkey⟩
            exact ⟨p, hp, by simp [hkey]⟩
          rcases hfind : st.2.find? (fun p => storedKey p = k) with _ | v
          · rw [hfind] at hsome; simp at hsome
          · simp [Option.or]
        · have hocc : firstOccByKey (e :: rest) k = firstOccByKey rest k := by
            unfold firstOccByKey
            rw [List.find?_cons_of_neg _ (by simp [hkk])]
          rw [hocc]
      · rw [add_layer_cons_new st e rest hd hk]
        have h1' : (st.1 ++ [appearance_key (pyStrip e.diplomatic)]) =
            ((st.2 ++ [(⟨pyStrip e.diplomatic, pyStrip e.full, false⟩ : ExamplePair)]).map
              storedKey) := by
          simp [h1, storedKey]
        rw [ih _ k h1', List.find?_append]
        by_cases hkk : appearance_key (pyStrip e.diplomatic) = k
        · have hnone : st.2.find? (fun p => storedKey p = k) = none := by
            rcases hfind : st.2.find? (fun p => storedKey p = k) with _ | v
            · rfl
            · exfalso
              have hvmem := List.mem_of_find?_eq_some hfind
              have hvkey : storedKey v = k := by
                simpa using List.find?_some hfind
              refine hk ?_
              rw [h1, hkk]
              rw [← hvkey]
              exact List.mem_map_of_mem storedKey hvmem
          have hone : List.find? (fun p => storedKey p = k)
              [(⟨pyStrip e.diplomatic, pyStrip e.full, false⟩ : ExamplePair)] =
              some ⟨pyStrip e.diplomatic, pyStrip e.full, false⟩ := by
            rw [List.find?_cons_of_pos _ (by simp [storedKey, hkk])]
          have hocc : firstOccByKey (e :: rest) k =
              some ⟨pyStrip e.diplomatic, pyStrip e.full, false⟩ := by
            unfold firstOccByKey
            rw [List.find?_cons_of_pos _ (by simp [hd, hkk])]
            rfl
          rw [hnone, hone, hocc]
          simp [Option.or]
        · have hone : List.find? (fun p => storedKey p = k)
              [(⟨pyStrip e.diplomatic, pyStrip e.full, false⟩ : ExamplePair)] = none := by
            rw [List.find?_cons_of_neg _ (by simp [storedKey, hkk])]
            rfl
          have hocc : firstOccByKey (e :: rest) k = firstOccByKey rest k := by
            unfold firstOccByKey
            rw [List.find?_cons_of_neg _ (by simp [hkk])]
          rw [hone, hocc]
          rcases hfind : st.2.find? (fun p => storedKey p = k) with _ | v <;>
            simp [Option.or]

theorem add_layer_append (st : List String × List ExamplePair) (a b : List ExamplePair) :
    add_layer (add_layer st a) b = add_layer st (a ++ b) := by
  simp [add_layer, List.foldl_append]

/-- C7: with all three layers present and both include flags set,
`load_examples` succeeds and merges project file → project-adjacent
learned file → personal learned file with first occurrence winning by
appearance key: the result's keys are pairwise distinct, and for every
key the result's entry is exactly the first non-blank pair with that key
in the concatenation of the three loaded layers (so a later layer never
overrides an already-seen key). -/
theorem load_examples_layering (pv lv : JVal) (personal : List ExamplePair) :
    ∃ res,
      load_examples (.parsed pv) (.parsed lv) personal true true = .ok res ∧
      (res.map storedKey).Nodup ∧
      ∀ k, res.find? (fun p => storedKey p = k) =
        firstOccByKey (parse_pairs pv ++ load_learned (.parsed lv) ++ personal) k := by
  refine ⟨(add_layer ([], [])
      (parse_pairs pv ++ load_learned (.parsed lv) ++ personal)).2, ?_, ?_, ?_⟩
  · show Except.ok
        (add_layer (add_layer (add_layer ([], []) (parse_pairs pv))
          (load_learned (.parsed lv))) personal).2 = _
    rw [add_layer_append, add_layer_append, List.append_assoc]
  · have h := add_layer_inv
      (parse_pairs pv ++ load_learned (.parsed lv) ++ personal) ([], [])
      (by simp) (by simp)
    rw [← h.1]
    exact h.2
  · intro k
    rw [add_layer_find _ ([], []) k (by simp)]
    simp [Option.or]

/-! ### C3 — an element is a block iff matched, leaf-most, and non-blank -/

theorem anyContains_of_mem (tags : List String) (c : List Node) (x : Node)
    (hx : x ∈ c) (h : containsBlockTag tags x = true) :
    anyContainsBlockTag tags c = true := by
  induction c with
  | nil => simp at hx
  | cons y rest ih =>
    rcases List.mem_cons.mp hx with h' | h'
    · subst h'; simp [anyContainsBlockTag, h]
    · simp [anyContainsBlockTag, ih h']

theorem containsBlockTag_of_occurs (tags : List String) (inner d : Node)
    (hocc : Occurs inner d) (t : String) (a : List (String × String)) (c : List Node)
    (hinner : inner = Node.elem t a c) (ht : tags.contains t = true) :
    containsBlockTag tags d = true := by
  induction hocc with
  | refl =>
    subst hinner
    rw [containsBlockTag]
    simp only [Bool.or_eq_true]
    exact Or.inl ht
  | child hx hsub ih =>
    rw [containsBlockTag]
    simp only [Bool.or_eq_true]
    exact Or.inr (anyContains_of_mem tags _ _ hx ih)

/-- C3: an element is returned by block collection iff it occurs in the
document, its local tag is in the tag set, no descendant element has a
matched tag, and its concatenated text is not whitespace-only; and
whenever a matched element occurs strictly inside another element, the
outer one is not a block, so nested matched tags yield only the
innermost as a block. -/
theorem block_extraction_characterization :
    (∀ (tags : List String) (d b : Node),
       b ∈ collectBlocks tags d ↔ Occurs b d ∧ isBlockNode tags b = true) ∧
    (∀ (tags : List String) (outer inner : Node) (t : String)
       (a : List (String × String)) (c : List Node),
       Occurs inner outer → inner ≠ outer → inner = Node.elem t a c →
       tags.contains t = true → isBlockNode tags outer = false) := by
  constructor
  · intro tags d
    induction d using Node.rec
      (motive_2 := fun l => ∀ b, b ∈ collectBlocksL tags l ↔
        (∃ x ∈ l, Occurs b x) ∧ isBlockNode tags b = true) with
    | text s =>
      intro b
      constructor
      · intro hb; simp [collectBlocks] at hb
      · intro ⟨hocc, hblk⟩
        cases hocc
        simp [isBlockNode] at hblk
    | elem t a c ih =>
      intro b
      constructor
      · intro hb
        rw [collectBlocks] at hb
        rcases List.mem_append.mp hb with hb | hb
        · by_cases hself : isBlockNode tags (Node.elem t a c) = true
          · rw [if_pos hself] at hb
            rw [List.mem_singleton] at hb
            subst hb
            exact ⟨Occurs.refl _, hself⟩
          · rw [if_neg hself] at hb
            simp at hb
        · rcases (ih b).mp hb with ⟨⟨x, hx, hocc⟩, hblk⟩
          exact ⟨Occurs.child hx hocc, hblk⟩
      · intro ⟨hocc, hblk⟩
        rw [collectBlocks]
        cases hocc with
        | refl =>
          rw [if_pos hblk]
          simp
        | child hx hsub =>
          refine List.mem_append.mpr (Or.inr ?_)
          exact (ih b).mpr ⟨⟨_, hx, hsub⟩, hblk⟩
    | nil =>
      rename_i b
      simp [collectBlocksL]
    | cons x rest ihx ihrest =>
      rename_i b
      rw [collectBlocksL]
      constructor
      · intro hb
        rcases List.mem_append.mp hb with hb | hb
        · rcases (ihx b).mp hb with ⟨hocc, hblk⟩
          exact ⟨⟨x, by simp, hocc⟩, hblk⟩
        · rcases (ihrest b).mp hb with ⟨⟨y, hy, hocc⟩, hblk⟩
          exact ⟨⟨y, by simp [hy], hocc⟩, hblk⟩
      · intro ⟨⟨y, hy, hocc⟩, hblk⟩
        rcases List.mem_cons.mp hy with h' | h'
        · subst h'
          exact List.mem_append.mpr (Or.inl ((ihx b).mpr ⟨hocc, hblk⟩))
        · exact List.mem_append.mpr (Or.inr ((ihrest b).mpr ⟨⟨y, h', hocc⟩, hblk⟩))
  · intro tags outer inner t a c hocc hne hinner ht
    cases hocc with
    | refl => exact absurd rfl hne
    | child hx hsub =>
      rename_i t' a' c' _
      have hc : containsBlockTag tags _ = true :=
        containsBlockTag_of_occurs tags inner _ hsub t a c hinner ht
      have hany := anyContains_of_mem tags _ _ hx hc
      simp [isBlockNode, hany]

/-- Witness for C3: a `seg` nested inside a `p` makes the outer `p` a
non-block; only the inner `seg` is collected. -/
theorem block_extraction_witness :
    Occurs (Node.elem "seg" [] [.text "x"]) (Node.elem "p" [] [.elem "seg" [] [.text "x"]]) ∧
    Node.elem "seg" [] [Node.text "x"] ≠ Node.elem "p" [] [.elem "seg" [] [.text "x"]] ∧
    TEXT_BLOCK_TAGS.contains "seg" = true ∧
    isBlockNode TEXT_BLOCK_TAGS (Node.elem "p" [] [.elem "seg" [] [.text "x"]]) = false :=
  have hocc : Occurs (Node.elem "seg" [] [.text "x"])
      (Node.elem "p" [] [.elem "seg" [] [.text "x"]]) :=
    Occurs.child (by simp) (Occurs.refl _)
  ⟨hocc, by decide, by decide,
   block_extraction_characterization.2 TEXT_BLOCK_TAGS
     (Node.elem "p" [] [.elem "seg" [] [.text "x"]])
     (Node.elem "seg" [] [.text "x"]) "seg" [] [.text "x"]
     hocc (by decide) rfl (by decide)⟩

/-! ### C2 — a pass only rewrites block contents -/

mutual

/-- Number of elements with the given local tag in a subtree. -/
def countTag (t : String) : Node → Nat
  | .text _ => 0
  | .elem t' _ c => (if t' = t then 1 else 0) + countTagL t c

/-- Number of elements with the given local tag under a sibling list. -/
def countTagL (t : String) : List Node → Nat
  | [] => 0
  | n :: rest => countTag t n + countTagL t rest

end

/-- The sibling list is a single text node. -/
def isSingleText : List Node → Bool
  | [] => false
  | (Node.text _) :: rest => rest.isEmpty
  | (Node.elem _ _ _) :: _ => false

mutual

/-- Every block element of this subtree consists of a single text node
(no markup nested inside any block). -/
def blocksTextOnly (tags : List String) : Node → Bool
  | .text _ => true
  | .elem t a c =>
    if isBlockNode tags (.elem t a c) then isSingleText c
    else blocksTextOnlyL tags c

/-- Sibling-list version of `blocksTextOnly`. -/
def blocksTextOnlyL (tags : List String) : List Node → Bool
  | [] => true
  | n :: rest => blocksTextOnly tags n && blocksTextOnlyL tags rest

end

theorem containsBlockTag_expand (tags : List String) (f : String → String) (n : Node) :
    containsBlockTag tags (expandNode tags f n) = containsBlockTag tags n := by
  induction n using Node.rec (motive_2 := fun l =>
      anyContainsBlockTag tags (expandNodeL tags f l) = anyContainsBlockTag tags l) with
  | text s => rfl
  | elem t a c ih =>
    rw [expandNode]
    by_cases hb : isBlockNode tags (.elem t a c) = true
    · rw [if_pos hb]
      have h3 := hb
      simp only [isBlockNode, Bool.and_eq_true] at h3
      have ht : t ∈ tags := by simpa using h3.1.1
      rw [containsBlockTag, containsBlockTag]
      simp [ht]
    · rw [if_neg hb]
      rw [containsBlockTag, containsBlockTag, ih]
  | nil => rfl
  | cons x rest ihx ihrest =>
    rw [expandNodeL, anyContainsBlockTag, anyContainsBlockTag, ihx, ihrest]

theorem anyContainsBlockTag_expandL (tags : List String) (f : String → String)
    (l : List Node) :
    anyContainsBlockTag tags (expandNodeL tags f l) = anyContainsBlockTag tags l := by
  induction l with
  | nil => rfl
  | cons x rest ih =>
    rw [expandNodeL, anyContainsBlockTag, anyContainsBlockTag,
      containsBlockTag_expand, ih]

theorem erase_expand (tags : List String) (f : String → String) (d : Node) :
    eraseInside tags (expandNode tags f d) = eraseInside tags d := by
  induction d using Node.rec (motive_2 := fun l =>
      eraseInsideL tags (expandNodeL tags f l) = eraseInsideL tags l) with
  | text s => rfl
  | elem t a c ih =>
    rw [expandNode]
    by_cases hb : isBlockNode tags (.elem t a c) = true
    · rw [if_pos hb]
      have h3 := hb
      simp only [isBlockNode, Bool.and_eq_true] at h3
      have hta : tags.contains t = true := h3.1.1
      have hany : anyContainsBlockTag tags c = false := by
        simpa using h3.1.2
      have htm : t ∈ tags := by simpa using hta
      rw [eraseInside, eraseInside]
      have hcond1 : (tags.contains t &&
          !anyContainsBlockTag tags [Node.text (f (innerTextL c))]) = true := by
        simp [htm, anyContainsBlockTag, containsBlockTag]
      have hcond2 : (tags.contains t && !anyContainsBlockTag tags c) = true := by
        simp [htm, hany]
      rw [if_pos hcond1, if_pos hcond2]
    · rw [if_neg hb]
      rw [eraseInside, eraseInside, anyContainsBlockTag_expandL]
      by_cases hcond : (tags.contains t && !anyContainsBlockTag tags c) = true
      · rw [if_pos hcond, if_pos hcond]
      · rw [if_neg hcond, if_neg hcond, ih]
  | nil => rfl
  | cons x rest ihx ihrest =>
    rw [expandNodeL, eraseInsideL, eraseInsideL, ihx, ihrest]

theorem expand_dry_run_id (tags : List String) (d : Node)
    (h : blocksTextOnly tags d = true) : expandNode tags (fun s => s) d = d := by
  revert h
  induction d using Node.rec (motive_2 := fun l =>
      blocksTextOnlyL tags l = true → expandNodeL tags (fun s => s) l = l) with
  | text s => intro _; rfl
  | elem t a c ih =>
    intro h
    rw [expandNode]
    by_cases hb : isBlockNode tags (.elem t a c) = true
    · rw [if_pos hb]
      rw [blocksTextOnly, if_pos hb] at h
      have hc : ∃ s, c = [Node.text s] := by
        cases c with
        | nil => simp [isSingleText] at h
        | cons hd tl =>
          cases hd with
          | text s =>
            cases tl with
            | nil => exact ⟨s, rfl⟩
            | cons y ys => simp [isSingleText] at h
          | elem t2 a2 c2 => simp [isSingleText] at h
      obtain ⟨s, rfl⟩ := hc
      rw [innerTextL, innerTextN, innerTextL]
      simp
    · rw [if_neg hb]
      rw [blocksTextOnly, if_neg hb] at h
      rw [ih h]
  | nil => rfl
  | cons x rest ihx ihrest =>
    rename_i h
    rw [blocksTextOnlyL] at h
    simp only [Bool.and_eq_true] at h
    rw [expandNodeL, ihx h.1, ihrest h.2]

/-- C2, amended: a pass changes nothing outside block contents — erasing
every leaf-most matched element's content in the output gives the same
tree as erasing it in the input, so all markup, attributes and ordering
outside blocks, and every block's own tag and attributes, are preserved;
and a dry run (identity transformation) returns the tree unchanged
whenever no block has markup nested inside it.  (Markup nested inside a
block is not preserved: `_set_inner_text` replaces the block's children
with a single text node.) -/
theorem expand_frame_and_dry_run :
    (∀ (tags : List String) (f : String → String) (d : Node),
       eraseInside tags (expandNode tags f d) = eraseInside tags d) ∧
    (∀ (tags : List String) (d : Node), blocksTextOnly tags d = true →
       expandNode tags (fun s => s) d = d) :=
  ⟨erase_expand, expand_dry_run_id⟩

/-- Counterexample to C2 as stated: a dry run on
`<root><p>a<hi>b</hi>c</p></root>` flattens the `<hi>` element nested
inside the `<p>` block — the output drops the nested markup, so the tag
structure is not byte-identical to the input. -/
theorem expand_nested_markup_counterexample :
    expand_once TEXT_BLOCK_TAGS (fun s => s) "<root><p>a<hi>b</hi>c</p></root>" =
      some (XML_DECL ++ "<root><p>abc</p></root>") ∧
    countTag "hi"
      (Node.elem "root" [] [.elem "p" [] [.text "a", .elem "hi" [] [.text "b"], .text "c"]]) = 1 ∧
    countTag "hi"
      (expandNode TEXT_BLOCK_TAGS (fun s => s)
        (Node.elem "root" []
          [.elem "p" [] [.text "a", .elem "hi" [] [.text "b"], .text "c"]])) = 0 := by
  refine ⟨by decide, by decide, by decide⟩

/-- Witness for C2 (amended): on `<root><p>abc</p></root>`, whose single
block holds only text, the dry run is the identity. -/
theorem expand_frame_and_dry_run_witness :
    blocksTextOnly TEXT_BLOCK_TAGS
        (Node.elem "root" [] [.elem "p" [] [.text "abc"]]) = true ∧
    expandNode TEXT_BLOCK_TAGS (fun s => s)
        (Node.elem "root" [] [.elem "p" [] [.text "abc"]]) =
      Node.elem "root" [] [.elem "p" [] [.text "abc"]] :=
  ⟨by decide,
   expand_frame_and_dry_run.2 TEXT_BLOCK_TAGS
     (Node.elem "root" [] [.elem "p" [] [.text "abc"]]) (by decide)⟩

/-! ### C8 — a pass with no blocks leaves the document tree unchanged -/

theorem expand_id_of_no_blocks (tags : List String) (f : String → String) (d : Node)
    (h : collectBlocks tags d = []) : expandNode tags f d = d := by
  revert h
  induction d using Node.rec (motive_2 := fun l =>
      collectBlocksL tags l = [] → expandNodeL tags f l = l) with
  | text s => intro _; rfl
  | elem t a c ih =>
    intro h
    rw [collectBlocks] at h
    rcases List.append_eq_nil.mp h with ⟨h1, h2⟩
    have hb : ¬isBlockNode tags (Node.elem t a c) = true := by
      intro hb
      rw [if_pos hb] at h1
      simp at h1
    rw [expandNode, if_neg hb, ih h2]
  | nil => rfl
  | cons x rest ihx ihrest =>
    rename_i h
    rw [collectBlocksL] at h
    rcases List.append_eq_nil.mp h with ⟨h1, h2⟩
    rw [expandNodeL, ihx h1, ihrest h2]

/-- C8, amended: when no element of the parsed document qualifies as a
block, a single block-mode pass leaves the document tree unchanged, and
the returned string is the re-serialization of that unchanged tree.  The
returned string is not in general the input string: `_serialize_root`
prepends the canonical XML declaration (and re-serializes), so only
inputs already in canonical serialized form round-trip byte-identically. -/
theorem empty_block_list_pass (tags : List String) (f : String → String) (src : String)
    (d : Node) (hp : parseXml src = some d) (hb : collectBlocks tags d = []) :
    expandNode tags f d = d ∧ expand_once tags f src = some (serialize_root d) := by
  refine ⟨expand_id_of_no_blocks tags f d hb, ?_⟩
  rw [expand_once, hp]
  simp only [Option.map]
  rw [expand_id_of_no_blocks tags f d hb]

/-- Counterexample to C8 as stated: `<root/>` parses, has no blocks, and
the pass returns the declaration-prefixed serialization, not the input
string. -/
theorem empty_block_pass_counterexample :
    parseXml "<root/>" = some (Node.elem "root" [] []) ∧
    collectBlocks TEXT_BLOCK_TAGS (Node.elem "root" [] []) = [] ∧
    expand_once TEXT_BLOCK_TAGS (fun s => s) "<root/>" = some (XML_DECL ++ "<root/>") ∧
    expand_once TEXT_BLOCK_TAGS (fun s => s) "<root/>" ≠ some "<root/>" := by
  refine ⟨by decide, by decide, by decide, by decide⟩

/-- Witness for C8 (amended): a `div` document with no matched tags. -/
theorem empty_block_list_pass_witness :
    parseXml "<div>x</div>" = some (Node.elem "div" [] [.text "x"]) ∧
    collectBlocks TEXT_BLOCK_TAGS (Node.elem "div" [] [.text "x"]) = [] ∧
    (expandNode TEXT_BLOCK_TAGS (fun s => s) (Node.elem "div" [] [.text "x"]) =
        Node.elem "div" [] [.text "x"] ∧
     expand_once TEXT_BLOCK_TAGS (fun s => s) "<div>x</div>" =
        some (serialize_root (Node.elem "div" [] [.text "x"]))) :=
  ⟨by decide, by decide,
   empty_block_list_pass TEXT_BLOCK_TAGS (fun s => s) "<div>x</div>"
     (Node.elem "div" [] [.text "x"]) (by decide) (by decide)⟩

/-! ### C5 / C10 — properties of `appearance_key`

Supporting lemmas about the NFKC fragment: how greedy canonical
composition splits around characters that cannot compose, and which
characters are fixed points of each pipeline stage. -/

/-- The pair (a, b) is a composable (base, mark) pair of the fragment. -/
def Composable (a b : Char) : Bool :=
  (compTab.find? (fun x => x.1 = a && x.2.1 = b)).isSome

/-- The first character of the list, if any, is not a combining mark. -/
def headNotMark : List Char → Prop
  | [] => True
  | c :: _ => isMark c = false

theorem find_comp_none_of_not_mark (a b : Char) (h : isMark b = false) :
    compTab.find? (fun x => x.1 = a && x.2.1 = b) = none := by
  rw [List.find?_eq_none]
  intro x hx hpred
  simp only [Bool.and_eq_true, decide_eq_true_eq] at hpred
  have hm : isMark b = true := by
    unfold isMark
    rw [List.any_eq_true]
    exact ⟨x, hx, by simp [hpred.2]⟩
  rw [h] at hm
  exact absurd hm (by simp)

theorem find_comp_none_of_not_base (a b : Char) (h : isBase a = false) :
    compTab.find? (fun x => x.1 = a && x.2.1 = b) = none := by
  rw [List.find?_eq_none]
  intro x hx hpred
  simp only [Bool.and_eq_true, decide_eq_true_eq] at hpred
  have hm : isBase a = true := by
    unfold isBase
    rw [List.any_eq_true]
    exact ⟨x, hx, by simp [hpred.1]⟩
  rw [h] at hm
  exact absurd hm (by simp)

theorem composable_false_of_not_mark (a b : Char) (h : isMark b = false) :
    Composable a b = false := by
  unfold Composable
  rw [find_comp_none_of_not_mark a b h]
  rfl

theorem composable_false_of_not_base (a b : Char) (h : isBase a = false) :
    Composable a b = false := by
  unfold Composable
  rw [find_comp_none_of_not_base a b h]
  rfl

/-- Composition distributes over append when the right part cannot start
a composition across the boundary. -/
theorem composePairs_append (l1 l2 : List Char) (h : headNotMark l2) :
    composePairs (l1 ++ l2) = composePairs l1 ++ composePairs l2 := by
  induction l1 using composePairs.induct with
  | case1 => simp [composePairs]
  | case2 c =>
    cases l2 with
    | nil => simp [composePairs]
    | cons b rest =>
      have hfind := find_comp_none_of_not_mark c b h
      simp only [List.singleton_append, composePairs, hfind]
  | case3 a b rest x hfind ih =>
    have h1 : composePairs ((a :: b :: rest) ++ l2) = x.2.2 :: composePairs (rest ++ l2) := by
      simp only [List.cons_append, composePairs, hfind, List.append_eq]
    have h2 : composePairs (a :: b :: rest) = x.2.2 :: composePairs rest := by
      simp only [composePairs, hfind]
    rw [h1, h2, ih, List.cons_append]
  | case4 a b rest hfind ih =>
    have h1 : composePairs ((a :: b :: rest) ++ l2) = a :: composePairs ((b :: rest) ++ l2) := by
      simp only [List.cons_append, composePairs, hfind, List.append_eq]
    have h2 : composePairs (a :: b :: rest) = a :: composePairs (b :: rest) := by
      simp only [composePairs, hfind]
    rw [h1, h2, ih, List.cons_append]

/-- Composition starting at a non-base character peels it off. -/
theorem composePairs_cons_not_base (c : Char) (l : List Char) (h : isBase c = false) :
    composePairs (c :: l) = c :: composePairs l := by
  cases l with
  | nil => rfl
  | cons b rest =>
    simp only [composePairs, find_comp_none_of_not_base c b h]

/-- Full decomposition is unchanged by a prior greedy composition: the
fragment's composition and decomposition tables are mutually inverse. -/
theorem decompAll_composePairs (m : List Char) :
    (composePairs m).flatMap decompAllChar = m.flatMap decompAllChar := by
  induction m using composePairs.induct with
  | case1 => rfl
  | case2 c => rfl
  | case3 a b rest x hfind ih =>
    have hx := List.mem_of_find?_eq_some hfind
    have hpred := List.find?_some hfind
    simp only [Bool.and_eq_true, decide_eq_true_eq] at hpred
    have hall2 : ∀ y ∈ compTab, decompAllChar y.2.2 = [y.1, y.2.1] := by decide
    have hdec : decompAllChar x.2.2 = [x.1, x.2.1] := hall2 x hx
    rw [composePairs, hfind]
    simp only [List.flatMap_cons]
    rw [ih, hdec, hpred.1, hpred.2]
    have hda : decompAllChar a = [a] := by
      have : isBase a = true := by
        unfold isBase
        rw [List.any_eq_true]
        exact ⟨x, hx, by simp [hpred.1]⟩
      revert this
      have : ∀ y ∈ compTab, decompAllChar y.1 = [y.1] := by decide
      intro hB
      unfold isBase at hB
      rw [List.any_eq_true] at hB
      obtain ⟨y, hy, hy1⟩ := hB
      simp only [decide_eq_true_eq] at hy1
      rw [← hy1]
      exact this y hy
    have hdb : decompAllChar b = [b] := by
      have hM : isMark b = true := by
        unfold isMark
        rw [List.any_eq_true]
        exact ⟨x, hx, by simp [hpred.2]⟩
      have hall : ∀ y ∈ compTab, decompAllChar y.2.1 = [y.2.1] := by decide
      unfold isMark at hM
      rw [List.any_eq_true] at hM
      obtain ⟨y, hy, hy1⟩ := hM
      simp only [decide_eq_true_eq] at hy1
      rw [← hy1]
      exact hall y hy
    rw [hda, hdb]
    rfl
  | case4 a b rest hfind ih =>
    rw [composePairs, hfind]
    simp only [List.flatMap_cons] at ih ⊢
    rw [ih]

/-- NFKC splits around a character that neither decomposes nor takes
part in any composition. -/
theorem nfkc_split_at_inert (q : Char) (l1 l2 : List Char)
    (hflat : decompAllChar q = [q]) (hm : isMark q = false) (hb : isBase q = false) :
    nfkcL (l1 ++ q :: l2) =
      composePairs (l1.flatMap decompAllChar) ++
        q :: composePairs (l2.flatMap decompAllChar) := by
  unfold nfkcL
  rw [List.flatMap_append, List.flatMap_cons, hflat]
  rw [show ([q] ++ l2.flatMap decompAllChar : List Char) =
      q :: l2.flatMap decompAllChar from rfl]
  rw [composePairs_append _ _ (show headNotMark (q :: l2.flatMap decompAllChar) from hm)]
  rw [composePairs_cons_not_base q _ hb]

/-- Replacing one inert character by another with the same image under
whitespace folding of the translation table leaves the key unchanged. -/
theorem key_inert_congr (q1 q2 : Char)
    (h1 : decompAllChar q1 = [q1]) (hm1 : isMark q1 = false) (hb1 : isBase q1 = false)
    (h2 : decompAllChar q2 = [q2]) (hm2 : isMark q2 = false) (hb2 : isBase q2 = false)
    (hz1 : isZeroWidth q1 = false) (hz2 : isZeroWidth q2 = false)
    (htr : mapWsChar (translateChar q1) = mapWsChar (translateChar q2))
    (l1 l2 : List Char) :
    appearanceKeyL (l1 ++ q1 :: l2) = appearanceKeyL (l1 ++ q2 :: l2) := by
  unfold appearanceKeyL
  rw [nfkc_split_at_inert q1 l1 l2 h1 hm1 hb1, nfkc_split_at_inert q2 l1 l2 h2 hm2 hb2]
  unfold stripZW
  simp only [List.filter_append, List.filter_cons, hz1, hz2, Bool.not_false, if_true]
  unfold collapseWs
  simp only [List.map_append, List.map_cons, htr]

/-- Replacing a character by one with the same full decomposition leaves
the key unchanged (e.g. NBSP vs plain space). -/
theorem key_decomp_congr (q1 q2 : Char) (h : decompAllChar q1 = decompAllChar q2)
    (l1 l2 : List Char) :
    appearanceKeyL (l1 ++ q1 :: l2) = appearanceKeyL (l1 ++ q2 :: l2) := by
  unfold appearanceKeyL nfkcL
  rw [List.flatMap_append, List.flatMap_cons, h, ← List.flatMap_cons, ← List.flatMap_append]

/-- Decomposition keeps the head free of combining marks. -/
theorem headNotMark_decompAll (l : List Char) (h : headNotMark l) :
    headNotMark (l.flatMap decompAllChar) := by
  cases l with
  | nil => trivial
  | cons c rest =>
    rw [List.flatMap_cons]
    have hcompat : ∀ p ∈ compatTab, p.2 ≠ [] ∧ ∀ d ∈ p.2, isMark d = false := by decide
    have hcomp : ∀ y ∈ compTab, isMark y.1 = false := by decide
    rcases hf : compatTab.find? (fun p => p.1 = c) with _ | p
    · rcases hg : compTab.find? (fun t => t.2.2 = c) with _ | t
      · have hd : decompAllChar c = [c] := by
          unfold decompAllChar
          rw [hf, hg]
        rw [hd]
        exact h
      · have hd : decompAllChar c = [t.1, t.2.1] := by
          unfold decompAllChar
          rw [hf, hg]
        rw [hd]
        exact hcomp t (List.mem_of_find?_eq_some hg)
    · have hd : decompAllChar c = p.2 := by
        unfold decompAllChar
        rw [hf]
      have hp := hcompat p (List.mem_of_find?_eq_some hf)
      rcases hcase : p.2 with _ | ⟨d, tl⟩
      · exact absurd hcase hp.1
      · rw [hd, hcase, List.cons_append]
        exact hp.2 d (by rw [hcase]; simp)

/-- Dropping a zero-width character does not change the key, provided it
does not stand between a base letter and a combining mark. -/
theorem key_zw_guarded (z : Char) (hz : isZeroWidth z = true)
    (hflat : decompAllChar z = [z]) (hm : isMark z = false) (hb : isBase z = false)
    (l1 l2 : List Char) (h2 : headNotMark l2) :
    appearanceKeyL (l1 ++ z :: l2) = appearanceKeyL (l1 ++ l2) := by
  unfold appearanceKeyL
  rw [nfkc_split_at_inert z l1 l2 hflat hm hb]
  have hr : nfkcL (l1 ++ l2) =
      composePairs (l1.flatMap decompAllChar) ++
        composePairs (l2.flatMap decompAllChar) := by
    unfold nfkcL
    rw [List.flatMap_append, composePairs_append _ _ (headNotMark_decompAll l2 h2)]
  rw [hr]
  unfold stripZW
  rw [List.filter_append, List.filter_append, List.filter_cons]
  simp [hz]

/-- Stripping absorbs a leading space. -/
theorem stripSp_cons_space (W : List Char) : stripSp (' ' :: W) = stripSp W := by
  unfold stripSp
  rw [List.dropWhile_cons]
  simp

/-- Stripping absorbs a trailing space. -/
theorem stripSp_append_space (W : List Char) : stripSp (W ++ [' ']) = stripSp W := by
  unfold stripSp
  rw [List.dropWhile_append]
  by_cases hW : (List.dropWhile (fun c => c = ' ') W).isEmpty = true
  · rw [if_pos hW]
    have : (List.dropWhile (fun c => c = ' ') W) = [] := by
      simpa using hW
    rw [this]
    simp [List.dropWhile_cons]
  · rw [if_neg hW]
    rw [List.reverse_append]
    rw [show ([' '] : List Char).reverse = [' '] from rfl]
    rw [List.singleton_append, List.dropWhile_cons]
    simp

/-- Unfolding equation for `dedupSp` on two or more elements. -/
theorem dedupSp_cc (a b : Char) (rest : List Char) :
    dedupSp (a :: b :: rest) =
      if (a = ' ' && b = ' ') = true then dedupSp (b :: rest)
      else a :: dedupSp (b :: rest) := rfl

/-- Deduplication absorbs a doubled space anywhere. -/
theorem dedupSp_double (X Y : List Char) :
    dedupSp (X ++ ' ' :: ' ' :: Y) = dedupSp (X ++ ' ' :: Y) := by
  induction X with
  | nil =>
    rw [List.nil_append, List.nil_append, dedupSp_cc]
    simp
  | cons a X' ih =>
    cases X' with
    | nil =>
      simp only [List.cons_append, List.nil_append] at ih ⊢
      rw [dedupSp_cc, ih, dedupSp_cc]
    | cons b X'' =>
      simp only [List.cons_append] at ih ⊢
      rw [dedupSp_cc, ih, dedupSp_cc]

/-- Deduplication of a list ending in a space yields the deduplication
of the prefix, with or without a final space. -/
theorem dedupSp_append_space (Z : List Char) :
    dedupSp (Z ++ [' ']) = dedupSp Z ++ [' '] ∨ dedupSp (Z ++ [' ']) = dedupSp Z := by
  induction Z using dedupSp.induct with
  | case1 => left; rfl
  | case2 c =>
    by_cases hc : c = ' '
    · subst hc
      right
      rw [List.singleton_append, dedupSp_cc]
      simp
    · left
      rw [List.singleton_append, dedupSp_cc]
      rw [if_neg (by simp [hc])]
      rfl
  | case3 a b rest hab ih =>
    rw [List.cons_append, List.cons_append, dedupSp_cc, if_pos hab,
      dedupSp_cc, if_pos hab, ← List.cons_append]
    exact ih
  | case4 a b rest hab ih =>
    rw [List.cons_append, List.cons_append, dedupSp_cc, if_neg hab,
      dedupSp_cc, if_neg hab, ← List.cons_append]
    rcases ih with h | h
    · left; rw [h, List.cons_append]
    · right; rw [h]

/-- Collapsing absorbs a leading space. -/
theorem collapse_cons_space (Z : List Char) :
    stripSp (dedupSp (' ' :: Z)) = stripSp (dedupSp Z) := by
  cases Z with
  | nil =>
    rw [show dedupSp [' '] = [' '] from rfl, show dedupSp ([] : List Char) = [] from rfl]
    rw [stripSp_cons_space]
  | cons z Z' =>
    rw [dedupSp_cc]
    by_cases hz : z = ' '
    · rw [if_pos (by simp [hz])]
    · rw [if_neg (by simp [hz])]
      rw [stripSp_cons_space]

/-- Collapsing absorbs a trailing space. -/
theorem collapse_append_space (Z : List Char) :
    stripSp (dedupSp (Z ++ [' '])) = stripSp (dedupSp Z) := by
  rcases dedupSp_append_space Z with h | h
  · rw [h, stripSp_append_space]
  · rw [h]

theorem headNotMark_cons (c : Char) (l : List Char) (h : isMark c = false) :
    headNotMark (c :: l) := h

/-- NFKC peels off a leading character that takes no part in composition. -/
theorem nfkc_cons_inert (q : Char) (l : List Char)
    (hflat : decompAllChar q = [q]) (hb : isBase q = false) :
    nfkcL (q :: l) = q :: nfkcL l := by
  unfold nfkcL
  rw [List.flatMap_cons, hflat, List.singleton_append]
  exact composePairs_cons_not_base q _ hb

/-- A leading space does not change the key. -/
theorem key_leading_space (l : List Char) :
    appearanceKeyL (' ' :: l) = appearanceKeyL l := by
  unfold appearanceKeyL
  rw [nfkc_cons_inert ' ' l (by decide) (by decide)]
  unfold stripZW
  rw [List.filter_cons]
  simp only [show (!isZeroWidth ' ') = true by decide, if_true]
  rw [List.map_cons, show translateChar ' ' = ' ' from by decide]
  unfold collapseWs
  rw [List.map_cons, show mapWsChar ' ' = ' ' from by decide]
  exact collapse_cons_space _

/-- A trailing space does not change the key. -/
theorem key_trailing_space (l : List Char) :
    appearanceKeyL (l ++ [' ']) = appearanceKeyL l := by
  unfold appearanceKeyL
  have h1 : nfkcL (l ++ [' ']) = nfkcL l ++ [' '] := by
    unfold nfkcL
    rw [List.flatMap_append, show ([' '] : List Char).flatMap decompAllChar = [' '] from by
      decide]
    rw [composePairs_append _ _ (headNotMark_cons ' ' [] (by decide))]
    rfl
  rw [h1]
  unfold stripZW
  rw [List.filter_append]
  simp only [show (List.filter (fun c => !isZeroWidth c) [' ']) = [' '] from by decide]
  rw [List.map_append, show List.map translateChar [' '] = [' '] from by decide]
  unfold collapseWs
  rw [List.map_append, show List.map mapWsChar [' '] = [' '] from by decide]
  exact collapse_append_space _

/-- Two adjacent spaces give the same key as one. -/
theorem key_double_space (l1 l2 : List Char) :
    appearanceKeyL (l1 ++ ' ' :: ' ' :: l2) = appearanceKeyL (l1 ++ ' ' :: l2) := by
  unfold appearanceKeyL
  have h1 : nfkcL (l1 ++ ' ' :: ' ' :: l2) =
      composePairs (l1.flatMap decompAllChar) ++ ' ' :: ' ' ::
        composePairs (l2.flatMap decompAllChar) := by
    unfold nfkcL
    rw [List.flatMap_append, List.flatMap_cons, List.flatMap_cons,
      show decompAllChar ' ' = [' '] from by decide]
    rw [show ([' '] ++ ([' '] ++ l2.flatMap decompAllChar) : List Char) =
        ' ' :: ' ' :: l2.flatMap decompAllChar from rfl]
    rw [composePairs_append _ _ (headNotMark_cons ' ' _ (by decide))]
    rw [composePairs_cons_not_base ' ' _ (by decide),
      composePairs_cons_not_base ' ' _ (by decide)]
  rw [h1, nfkc_split_at_inert ' ' l1 l2 (by decide) (by decide) (by decide)]
  unfold stripZW
  simp only [List.filter_append, List.filter_cons,
    show (!isZeroWidth ' ') = true from by decide, if_true]
  simp only [List.map_append, List.map_cons,
    show translateChar ' ' = ' ' from by decide]
  unfold collapseWs
  simp only [List.map_append, List.map_cons,
    show mapWsChar ' ' = ' ' from by decide]
  rw [dedupSp_double]

/-- Bundle of side conditions making a character "plain whitespace" for
the pipeline: inert for NFKC, not zero-width, and folded to a space. -/
def plainWsChar (w : Char) : Prop :=
  decompAllChar w = [w] ∧ isMark w = false ∧ isBase w = false ∧
    isZeroWidth w = false ∧ mapWsChar (translateChar w) = ' '

theorem key_ws_congr_space (w : Char) (l1 l2 : List Char) (h : plainWsChar w) :
    appearanceKeyL (l1 ++ w :: l2) = appearanceKeyL (l1 ++ ' ' :: l2) := by
  obtain ⟨h1, h2, h3, h4, h5⟩ := h
  exact key_inert_congr w ' ' h1 h2 h3 (by decide) (by decide) (by decide)
    h4 (by decide) (h5.trans (by decide)) l1 l2

/-- A run of two whitespace characters collapses to the key of a single
space. -/
theorem key_ws_pair (w1 w2 : Char) (l1 l2 : List Char)
    (hw1 : plainWsChar w1) (hw2 : plainWsChar w2) :
    appearanceKeyL (l1 ++ w1 :: w2 :: l2) = appearanceKeyL (l1 ++ ' ' :: l2) := by
  have e1 : appearanceKeyL (l1 ++ w1 :: w2 :: l2) =
      appearanceKeyL (l1 ++ ' ' :: w2 :: l2) :=
    key_ws_congr_space w1 l1 (w2 :: l2) hw1
  have harg : l1 ++ ' ' :: w2 :: l2 = (l1 ++ [' ']) ++ w2 :: l2 := by simp
  have e2 : appearanceKeyL ((l1 ++ [' ']) ++ w2 :: l2) =
      appearanceKeyL ((l1 ++ [' ']) ++ ' ' :: l2) :=
    key_ws_congr_space w2 (l1 ++ [' ']) l2 hw2
  have harg2 : (l1 ++ [' ']) ++ ' ' :: l2 = l1 ++ ' ' :: ' ' :: l2 := by simp
  rw [e1, harg, e2, harg2, key_double_space]

/-- C5, amended: `appearance_key` maps Unicode-variant texts to the same
key — the NFC and NFD forms of every text give equal keys; the curly
single quotes U+2018/U+2019/U+201B fold with the straight apostrophe,
the curly double quotes U+201C/U+201D/U+201F with the straight double
quote, the dash variants with '-', and NBSP / narrow no-break / thin
space with a plain space, in any context; a zero-width character is
dropped after NFKC and so is ignored *provided* it does not stand
between a base letter and a combining mark (where it blocks canonical
composition); and runs of whitespace collapse — two adjacent whitespace
characters key like a single space, and leading or trailing whitespace
keys like none at all. -/
theorem appearance_key_equivalences :
    (∀ s : String,
       appearance_key (String.mk (nfcL s.data)) =
         appearance_key (String.mk (nfdL s.data))) ∧
    (∀ (q : Char) (l1 l2 : List Char), q ∈ ['‘', '’', '‛'] →
       appearanceKeyL (l1 ++ q :: l2) = appearanceKeyL (l1 ++ '\'' :: l2)) ∧
    (∀ (q : Char) (l1 l2 : List Char), q ∈ ['“', '”', '‟'] →
       appearanceKeyL (l1 ++ q :: l2) = appearanceKeyL (l1 ++ '"' :: l2)) ∧
    (∀ (q : Char) (l1 l2 : List Char),
       q ∈ ['‐', '‑', '‒', '–', '—', '−'] →
       appearanceKeyL (l1 ++ q :: l2) = appearanceKeyL (l1 ++ '-' :: l2)) ∧
    (∀ (q : Char) (l1 l2 : List Char), q ∈ [' ', ' ', ' '] →
       appearanceKeyL (l1 ++ q :: l2) = appearanceKeyL (l1 ++ ' ' :: l2)) ∧
    (∀ (z : Char) (l1 l2 : List Char), isZeroWidth z = true → headNotMark l2 →
       appearanceKeyL (l1 ++ z :: l2) = appearanceKeyL (l1 ++ l2)) ∧
    (∀ (w1 w2 : Char) (l1 l2 : List Char),
       w1 ∈ [' ', '\t', '\n', '\r'] → w2 ∈ [' ', '\t', '\n', '\r'] →
       appearanceKeyL (l1 ++ w1 :: w2 :: l2) = appearanceKeyL (l1 ++ ' ' :: l2)) ∧
    (∀ (w : Char) (l : List Char), w ∈ [' ', '\t', '\n', '\r'] →
       appearanceKeyL (w :: l) = appearanceKeyL l ∧
       appearanceKeyL (l ++ [w]) = appearanceKeyL l) := by
  refine ⟨?_, ?_, ?_, ?_, ?_, ?_, ?_, ?_⟩
  · intro s
    show String.mk (appearanceKeyL (nfcL s.data)) = String.mk (appearanceKeyL (nfdL s.data))
    have h : nfkcL (nfcL s.data) = nfkcL (nfdL s.data) := by
      unfold nfkcL nfcL nfdL
      rw [decompAll_composePairs]
    unfold appearanceKeyL
    rw [h]
  · intro q l1 l2 hq
    simp only [List.mem_cons, List.not_mem_nil, or_false] at hq
    rcases hq with rfl | rfl | rfl <;>
      exact key_inert_congr _ _ (by decide) (by decide) (by decide) (by decide)
        (by decide) (by decide) (by decide) (by decide) (by decide) l1 l2
  · intro q l1 l2 hq
    simp only [List.mem_cons, List.not_mem_nil, or_false] at hq
    rcases hq with rfl | rfl | rfl <;>
      exact key_inert_congr _ _ (by decide) (by decide) (by decide) (by decide)
        (by decide) (by decide) (by decide) (by decide) (by decide) l1 l2
  · intro q l1 l2 hq
    simp only [List.mem_cons, List.not_mem_nil, or_false] at hq
    rcases hq with rfl | rfl | rfl | rfl | rfl | rfl <;>
      exact key_inert_congr _ _ (by decide) (by decide) (by decide) (by decide)
        (by decide) (by decide) (by decide) (by decide) (by decide) l1 l2
  · intro q l1 l2 hq
    simp only [List.mem_cons, List.not_mem_nil, or_false] at hq
    rcases hq with rfl | rfl | rfl <;>
      exact key_decomp_congr _ _ (by decide) l1 l2
  · intro z l1 l2 hz h2
    have hz4 : ((z = '​' ∨ z = '‌') ∨ z = '‍') ∨ z = '﻿' := by
      unfold isZeroWidth at hz
      simpa using hz
    rcases hz4 with ((rfl | rfl) | rfl) | rfl <;>
      exact key_zw_guarded _ (by decide) (by decide) (by decide) (by decide) l1 l2 h2
  · intro w1 w2 l1 l2 h1 h2
    simp only [List.mem_cons, List.not_mem_nil, or_false] at h1 h2
    have hw1 : plainWsChar w1 := by
      rcases h1 with rfl | rfl | rfl | rfl <;>
        exact ⟨by decide, by decide, by decide, by decide, by decide⟩
    have hw2 : plainWsChar w2 := by
      rcases h2 with rfl | rfl | rfl | rfl <;>
        exact ⟨by decide, by decide, by decide, by decide, by decide⟩
    exact key_ws_pair w1 w2 l1 l2 hw1 hw2
  · intro w l hw
    simp only [List.mem_cons, List.not_mem_nil, or_false] at hw
    have hpw : plainWsChar w := by
      rcases hw with rfl | rfl | rfl | rfl <;>
        exact ⟨by decide, by decide, by decide, by decide, by decide⟩
    constructor
    · have e1 : appearanceKeyL ([] ++ w :: l) = appearanceKeyL ([] ++ ' ' :: l) :=
        key_ws_congr_space w [] l hpw
      simp only [List.nil_append] at e1
      rw [e1, key_leading_space]
    · have e1 : appearanceKeyL (l ++ w :: []) = appearanceKeyL (l ++ ' ' :: []) :=
        key_ws_congr_space w l [] hpw
      rw [show l ++ [w] = l ++ w :: [] from rfl, e1]
      exact key_trailing_space l

/-- Counterexample to C5 as stated: zero-width characters are *not*
always ignored.  A ZWSP between `e` and a combining acute blocks NFKC
composition, and it is stripped only after normalization, so
`appearance_key "e​́"` is the two-character decomposed key
while `appearance_key "é"` is the precomposed `é`. -/
theorem appearance_key_zw_counterexample :
    appearance_key "e​́" ≠ appearance_key "é" := by decide

/-- Witness for C5 (amended): the curly apostrophe U+2019 keys like the
straight one inside a word. -/
theorem appearance_key_equivalences_witness :
    ('’' ∈ (['‘', '’', '‛'] : List Char)) ∧
    appearanceKeyL ('c' :: '’' :: ['s']) = appearanceKeyL ('c' :: '\'' :: ['s']) :=
  ⟨by decide,
   by
     have h := appearance_key_equivalences.2.1 '’' ['c'] ['s'] (by decide)
     simpa using h⟩

/-! Adjacent-pair invariants used to show that a computed key is a fixed
point of the whole pipeline (C10). -/

/-- R holds between every two adjacent characters. -/
def ChainAdj (R : Char → Char → Prop) : List Char → Prop
  | [] => True
  | [_] => True
  | a :: b :: rest => R a b ∧ ChainAdj R (b :: rest)

theorem chainAdj_tail {R : Char → Char → Prop} (c : Char) (l : List Char)
    (h : ChainAdj R (c :: l)) : ChainAdj R l := by
  cases l with
  | nil => trivial
  | cons b rest => exact h.2

theorem chainAdj_cons {R : Char → Char → Prop} (c : Char) (l : List Char)
    (h : ChainAdj R l) (hc : ∀ b t, l = b :: t → R c b) : ChainAdj R (c :: l) := by
  cases l with
  | nil => trivial
  | cons b rest => exact ⟨hc b rest rfl, h⟩

theorem chainAdj_append_left {R : Char → Char → Prop} (l1 l2 : List Char)
    (h : ChainAdj R (l1 ++ l2)) : ChainAdj R l1 := by
  induction l1 with
  | nil => trivial
  | cons a rest ih =>
    cases rest with
    | nil => trivial
    | cons b rest' =>
      rw [List.cons_append] at h
      exact ⟨h.1, ih (by rw [List.cons_append] at h; exact h.2)⟩

theorem chainAdj_take {R : Char → Char → Prop} (k : Nat) (l : List Char)
    (h : ChainAdj R l) : ChainAdj R (l.take k) := by
  induction l generalizing k with
  | nil => simp; trivial
  | cons a tl ih =>
    cases k with
    | zero => trivial
    | succ k' =>
      rw [List.take_succ_cons]
      refine chainAdj_cons a _ (ih k' (chainAdj_tail a tl h)) ?_
      intro b t hbt
      cases tl with
      | nil => simp at hbt
      | cons b0 rest =>
        cases k' with
        | zero => simp at hbt
        | succ k'' =>
          rw [List.take_succ_cons] at hbt
          cases hbt
          exact h.1

theorem chainAdj_dropWhile {R : Char → Char → Prop} (p : Char → Bool) (l : List Char)
    (h : ChainAdj R l) : ChainAdj R (l.dropWhile p) := by
  induction l with
  | nil => trivial
  | cons a tl ih =>
    rw [List.dropWhile_cons]
    by_cases hp : p a = true
    · rw [if_pos hp]
      exact ih (chainAdj_tail a tl h)
    · rw [if_neg hp]
      exact h

theorem chainAdj_map {R : Char → Char → Prop} (f : Char → Char) (l : List Char)
    (hmono : ∀ a b, R a b → R (f a) (f b)) (h : ChainAdj R l) :
    ChainAdj R (l.map f) := by
  induction l with
  | nil => trivial
  | cons a tl ih =>
    rw [List.map_cons]
    refine chainAdj_cons (f a) _ (ih (chainAdj_tail a tl h)) ?_
    intro b t hbt
    cases tl with
    | nil => simp at hbt
    | cons b0 rest =>
      rw [List.map_cons] at hbt
      cases hbt
      exact hmono a b0 h.1

/-- Deduplication preserves the head character. -/
theorem dedupSp_head (c : Char) (t : List Char) :
    ∃ t2, dedupSp (c :: t) = c :: t2 := by
  induction t generalizing c with
  | nil => exact ⟨[], rfl⟩
  | cons b rest ih =>
    rw [dedupSp_cc]
    by_cases hcb : (c = ' ' && b = ' ') = true
    · rw [if_pos hcb]
      have hc : c = ' ' ∧ b = ' ' := by simpa using hcb
      obtain ⟨t2, ht2⟩ := ih b
      exact ⟨t2, by rw [ht2, hc.2, hc.1]⟩
    · rw [if_neg hcb]
      exact ⟨dedupSp (b :: rest), rfl⟩

theorem chainAdj_dedupSp {R : Char → Char → Prop} (l : List Char)
    (h : ChainAdj R l) : ChainAdj R (dedupSp l) := by
  induction l using dedupSp.induct with
  | case1 => trivial
  | case2 c => trivial
  | case3 a b rest hab ih =>
    rw [dedupSp_cc, if_pos hab]
    exact ih (chainAdj_tail a _ h)
  | case4 a b rest hab ih =>
    rw [dedupSp_cc, if_neg hab]
    obtain ⟨t2, ht2⟩ := dedupSp_head b rest
    rw [ht2]
    refine chainAdj_cons a _ (by rw [← ht2]; exact ih (chainAdj_tail a _ h)) ?_
    intro b' t' hbt
    cases hbt
    exact h.1

/-- No adjacent pair of the list can canonically compose. -/
def NoComp (l : List Char) : Prop := ChainAdj (fun a b => Composable a b = false) l

theorem composePairs_cons_of_not_composable (c b : Char) (rest : List Char)
    (h : Composable c b = false) :
    composePairs (c :: b :: rest) = c :: composePairs (b :: rest) := by
  have hfind : compTab.find? (fun x => x.1 = c && x.2.1 = b) = none := by
    unfold Composable at h
    rcases hf : compTab.find? (fun x => x.1 = c && x.2.1 = b) with _ | x
    · exact hf
    · rw [hf] at h
      simp at h
  simp only [composePairs, hfind]

/-- The head of a composed list is the original head or a precomposed
character. -/
theorem composePairs_head_cases (b : Char) (rest : List Char) :
    (∃ t, composePairs (b :: rest) = b :: t) ∨
    (∃ c t, composePairs (b :: rest) = c :: t ∧ isComposed c = true) := by
  cases rest with
  | nil => exact Or.inl ⟨[], rfl⟩
  | cons b2 rest2 =>
    rcases hf : compTab.find? (fun x => x.1 = b && x.2.1 = b2) with _ | x
    · left
      exact ⟨composePairs (b2 :: rest2), by simp only [composePairs, hf]⟩
    · right
      refine ⟨x.2.2, composePairs rest2, by simp only [composePairs, hf], ?_⟩
      unfold isComposed
      rw [List.any_eq_true]
      exact ⟨x, List.mem_of_find?_eq_some hf, by simp⟩

/-- Greedy composition leaves no composable adjacent pair. -/
theorem noComp_composePairs (m : List Char) : NoComp (composePairs m) := by
  have hcompfact : ∀ y ∈ compTab, isBase y.2.2 = false ∧ isMark y.2.2 = false := by decide
  induction m using composePairs.induct with
  | case1 => trivial
  | case2 c => trivial
  | case3 a b rest x hfind ih =>
    simp only [composePairs, hfind]
    have hx := hcompfact x (List.mem_of_find?_eq_some hfind)
    refine chainAdj_cons _ _ ih ?_
    intro b' t' _
    exact composable_false_of_not_base _ _ hx.1
  | case4 a b rest hfind ih =>
    simp only [composePairs, hfind]
    refine chainAdj_cons _ _ ih ?_
    intro b' t' hbt
    rcases composePairs_head_cases b rest with ⟨t, ht⟩ | ⟨c, t, ht, hc⟩
    · rw [ht] at hbt
      cases hbt
      unfold Composable
      rw [hfind]
      rfl
    · rw [ht] at hbt
      cases hbt
      have : isMark b' = false := by
        have hall : ∀ y ∈ compTab, isMark y.2.2 = false := fun y hy => (hcompfact y hy).2
        unfold isComposed at hc
        rw [List.any_eq_true] at hc
        obtain ⟨y, hy, hy2⟩ := hc
        simp only [decide_eq_true_eq] at hy2
        rw [← hy2]
        exact hall y hy
      exact composable_false_of_not_mark _ _ this

/-- Characters of a composed list come from the input or are precomposed. -/
theorem mem_composePairs (m : List Char) (c : Char) (h : c ∈ composePairs m) :
    c ∈ m ∨ isComposed c = true := by
  induction m using composePairs.induct with
  | case1 => simp [composePairs] at h
  | case2 d => simp [composePairs] at h; simp [h]
  | case3 a b rest x hfind ih =>
    simp only [composePairs, hfind] at h
    rcases List.mem_cons.mp h with h' | h'
    · right
      subst h'
      unfold isComposed
      rw [List.any_eq_true]
      exact ⟨x, List.mem_of_find?_eq_some hfind, by simp⟩
    · rcases ih h' with h'' | h''
      · left; simp [h'']
      · right; exact h''
  | case4 a b rest hfind ih =>
    simp only [composePairs, hfind] at h
    rcases List.mem_cons.mp h with h' | h'
    · left; simp [h']
    · rcases ih h' with h'' | h''
      · left
        rcases List.mem_cons.mp h'' with h3 | h3
        · simp [h3]
        · simp [h3]
      · right; exact h''

theorem dropWhile_idem (p : Char → Bool) (l : List Char) :
    (l.dropWhile p).dropWhile p = l.dropWhile p := by
  induction l with
  | nil => rfl
  | cons a tl ih =>
    rw [List.dropWhile_cons]
    by_cases hp : p a = true
    · rw [if_pos hp]; exact ih
    · rw [if_neg hp, List.dropWhile_cons, if_neg hp]

theorem dropWhile_eq_self_of_prefix (p : Char → Bool) (Y Z : List Char)
    (hY : Y.dropWhile p = Y) (hZ : Z <+: Y) : Z.dropWhile p = Z := by
  cases Z with
  | nil => rfl
  | cons c t =>
    obtain ⟨u, hu⟩ := hZ
    rw [List.cons_append] at hu
    have hc : p c = false := by
      by_contra hc
      have hc' : p c = true := by
        cases hpc : p c
        · rw [hpc] at hc; exact absurd rfl hc
        · rfl
      rw [← hu, List.dropWhile_cons, if_pos hc'] at hY
      have hle := (List.dropWhile_suffix (l := t ++ u) p).length_le
      rw [hY] at hle
      simp at hle
    rw [List.dropWhile_cons, if_neg (by simp [hc])]

/-- The strip of a list is a prefix of its leading-space drop. -/
theorem stripSp_takes (l : List Char) :
    stripSp l <+: l.dropWhile (fun c => c = ' ') := by
  unfold stripSp
  obtain ⟨u, hu⟩ :=
    List.dropWhile_suffix (l := (l.dropWhile (fun c => c = ' ')).reverse)
      (fun c => c = ' ')
  refine ⟨u.reverse, ?_⟩
  have := congrArg List.reverse hu
  rw [List.reverse_append] at this
  rw [this, List.reverse_reverse]

theorem chainAdj_stripSp {R : Char → Char → Prop} (l : List Char)
    (h : ChainAdj R l) : ChainAdj R (stripSp l) := by
  have h1 : ChainAdj R (l.dropWhile (fun c => c = ' ')) := chainAdj_dropWhile _ _ h
  obtain ⟨r, hr⟩ := stripSp_takes l
  have : stripSp l = (l.dropWhile (fun c => c = ' ')).take (stripSp l).length := by
    rw [← hr, List.take_left]
  rw [this]
  exact chainAdj_take _ _ h1

/-- Stripping is idempotent. -/
theorem stripSp_idem (l : List Char) : stripSp (stripSp l) = stripSp l := by
  have hY : (l.dropWhile (fun c => c = ' ')).dropWhile (fun c => c = ' ') =
      l.dropWhile (fun c => c = ' ') := dropWhile_idem _ l
  have hZfix : (stripSp l).dropWhile (fun c => c = ' ') = stripSp l :=
    dropWhile_eq_self_of_prefix _ _ _ hY (stripSp_takes l)
  show ((((stripSp l).dropWhile (fun c => c = ' ')).reverse.dropWhile
      (fun c => c = ' ')).reverse) = stripSp l
  rw [hZfix]
  have hrev : (stripSp l).reverse.dropWhile (fun c => c = ' ') = (stripSp l).reverse := by
    have h2 : (stripSp l).reverse =
        ((l.dropWhile (fun c => c = ' ')).reverse).dropWhile (fun c => c = ' ') := by
      unfold stripSp
      rw [List.reverse_reverse]
    rw [h2, dropWhile_idem]
  rw [hrev, List.reverse_reverse]

/-- No two adjacent spaces. -/
def NoDbl (l : List Char) : Prop := ChainAdj (fun a b => ¬(a = ' ' ∧ b = ' ')) l

theorem dedupSp_fixed (l : List Char) (h : NoDbl l) : dedupSp l = l := by
  induction l using dedupSp.induct with
  | case1 => rfl
  | case2 c => rfl
  | case3 a b rest hab ih =>
    exfalso
    exact h.1 (by simpa using hab)
  | case4 a b rest hab ih =>
    rw [dedupSp_cc, if_neg hab, ih (chainAdj_tail a _ h)]

theorem noDbl_dedupSp (l : List Char) : NoDbl (dedupSp l) := by
  induction l using dedupSp.induct with
  | case1 => trivial
  | case2 c => trivial
  | case3 a b rest hab ih =>
    rw [dedupSp_cc, if_pos hab]
    exact ih
  | case4 a b rest hab ih =>
    rw [dedupSp_cc, if_neg hab]
    obtain ⟨t2, ht2⟩ := dedupSp_head b rest
    rw [ht2]
    refine chainAdj_cons a _ (by rw [← ht2]; exact ih) ?_
    intro b' t' hbt
    cases hbt
    intro hcon
    rw [hcon.1, hcon.2] at hab
    simp at hab

/-- Decomposition outputs are themselves fully decomposed. -/
theorem decompAllChar_flat (c d : Char) (h : d ∈ decompAllChar c) :
    decompAllChar d = [d] := by
  have hcompat : ∀ p ∈ compatTab, ∀ e ∈ p.2, decompAllChar e = [e] := by decide
  have hcomp : ∀ y ∈ compTab,
      decompAllChar y.1 = [y.1] ∧ decompAllChar y.2.1 = [y.2.1] := by decide
  rcases hf : compatTab.find? (fun p => p.1 = c) with _ | p
  · rcases hg : compTab.find? (fun t => t.2.2 = c) with _ | t
    · have hd : decompAllChar c = [c] := by
        unfold decompAllChar
        rw [hf, hg]
      rw [hd] at h
      rcases List.mem_singleton.mp h with rfl
      exact hd
    · have hd : decompAllChar c = [t.1, t.2.1] := by
        unfold decompAllChar
        rw [hf, hg]
      rw [hd] at h
      have ht := hcomp t (List.mem_of_find?_eq_some hg)
      rcases List.mem_cons.mp h with rfl | h'
      · exact ht.1
      · rcases List.mem_singleton.mp h' with rfl
        exact ht.2
  · have hd : decompAllChar c = p.2 := by
      unfold decompAllChar
      rw [hf]
    rw [hd] at h
    exact hcompat p (List.mem_of_find?_eq_some hf) d h

/-- Every decomposition is either trivial or starts with a non-mark. -/
theorem decompAllChar_head (c : Char) :
    decompAllChar c = [c] ∨
    (∃ d t, decompAllChar c = d :: t ∧ isMark d = false) := by
  have hcompat : ∀ p ∈ compatTab, p.2 ≠ [] ∧ ∀ e ∈ p.2, isMark e = false := by decide
  have hcomp : ∀ y ∈ compTab, isMark y.1 = false := by decide
  rcases hf : compatTab.find? (fun p => p.1 = c) with _ | p
  · rcases hg : compTab.find? (fun t => t.2.2 = c) with _ | t
    · left
      unfold decompAllChar
      rw [hf, hg]
    · right
      refine ⟨t.1, [t.2.1], ?_, hcomp t (List.mem_of_find?_eq_some hg)⟩
      unfold decompAllChar
      rw [hf, hg]
  · right
    have hp := hcompat p (List.mem_of_find?_eq_some hf)
    rcases hcase : p.2 with _ | ⟨d, tl⟩
    · exact absurd hcase hp.1
    · refine ⟨d, tl, ?_, hp.2 d (by rw [hcase]; simp)⟩
      unfold decompAllChar
      rw [hf]
      exact hcase

/-- A precomposed character decomposes to its (base, mark) pair, which
greedy composition maps straight back to it. -/
theorem composed_decomp (c : Char) (h : isComposed c = true) :
    ∃ x, x ∈ compTab ∧ decompAllChar c = [x.1, x.2.1] ∧ x.2.2 = c ∧
      compTab.find? (fun y => y.1 = x.1 && y.2.1 = x.2.1) = some x := by
  have hnocompat : ∀ y ∈ compTab, compatTab.find? (fun p => p.1 = y.2.2) = none := by
    decide
  have hself : ∀ y ∈ compTab, compTab.find? (fun t => t.2.2 = y.2.2) = some y := by decide
  have hfind2 : ∀ y ∈ compTab,
      compTab.find? (fun t2 => t2.1 = y.1 && t2.2.1 = y.2.1) = some y := by decide
  unfold isComposed at h
  rw [List.any_eq_true] at h
  obtain ⟨y, hy, hyc⟩ := h
  simp only [decide_eq_true_eq] at hyc
  refine ⟨y, hy, ?_, hyc, hfind2 y hy⟩
  unfold decompAllChar
  rw [← hyc, hnocompat y hy, hself y hy]

/-- Characters of an NFKC image are fully decomposed or precomposed. -/
theorem nfkc_chars (l : List Char) (c : Char) (h : c ∈ nfkcL l) :
    decompAllChar c = [c] ∨ isComposed c = true := by
  unfold nfkcL at h
  rcases mem_composePairs _ _ h with h' | h'
  · left
    rcases List.mem_flatMap.mp h' with ⟨d, _, hd⟩
    exact decompAllChar_flat d c hd
  · right
    exact h'

/-- NFKC fixes every list whose characters are fully decomposed or
precomposed and in which no adjacent pair can compose. -/
theorem nfkc_fixed (l : List Char)
    (h1 : ∀ c ∈ l, decompAllChar c = [c] ∨ isComposed c = true)
    (h2 : NoComp l) : nfkcL l = l := by
  induction l with
  | nil => rfl
  | cons c rest ih =>
    have htail := ih (fun d hd => h1 d (by simp [hd])) (chainAdj_tail c rest h2)
    rcases h1 c (by simp) with hflat | hcomp
    · unfold nfkcL
      rw [List.flatMap_cons, hflat, List.singleton_append]
      have hsplit : composePairs (c :: rest.flatMap decompAllChar) =
          c :: composePairs (rest.flatMap decompAllChar) := by
        cases rest with
        | nil => rfl
        | cons r0 rest' =>
          rw [List.flatMap_cons]
          rcases decompAllChar_head r0 with hr | ⟨d, t, hdt, hdm⟩
          · rw [hr, List.singleton_append]
            exact composePairs_cons_of_not_composable c r0 _ h2.1
          · rw [hdt, List.cons_append]
            exact composePairs_cons_of_not_composable c d _
              (composable_false_of_not_mark c d hdm)
      rw [hsplit]
      unfold nfkcL at htail
      rw [htail]
    · obtain ⟨x, hx, hdec, hxc, hfind2⟩ := composed_decomp c hcomp
      unfold nfkcL
      rw [List.flatMap_cons, hdec]
      rw [show ([x.1, x.2.1] ++ rest.flatMap decompAllChar : List Char) =
          x.1 :: x.2.1 :: rest.flatMap decompAllChar from rfl]
      rw [show composePairs (x.1 :: x.2.1 :: rest.flatMap decompAllChar) =
          x.2.2 :: composePairs (rest.flatMap decompAllChar) from by
        simp only [composePairs, hfind2]]
      rw [hxc]
      unfold nfkcL at htail
      rw [htail]

theorem mem_dedupSp (l : List Char) (c : Char) (h : c ∈ dedupSp l) : c ∈ l := by
  induction l using dedupSp.induct with
  | case1 =>
    rw [show dedupSp ([] : List Char) = [] from rfl] at h
    simp at h
  | case2 d =>
    rw [show dedupSp [d] = [d] from rfl] at h
    exact h
  | case3 a b rest hab ih =>
    rw [dedupSp_cc, if_pos hab] at h
    exact List.mem_cons_of_mem a (ih h)
  | case4 a b rest hab ih =>
    rw [dedupSp_cc, if_neg hab] at h
    rcases List.mem_cons.mp h with rfl | h'
    · exact List.mem_cons_self _ _
    · exact List.mem_cons_of_mem a (ih h')

theorem mem_stripSp (l : List Char) (c : Char) (h : c ∈ stripSp l) : c ∈ l := by
  have hsub : ∀ (m : List Char) (d : Char),
      d ∈ m.dropWhile (fun c => c = ' ') → d ∈ m :=
    fun m d hd => (List.dropWhile_suffix (fun c => c = ' ')).subset hd
  unfold stripSp at h
  rw [List.mem_reverse] at h
  have h2 := hsub _ _ h
  rw [List.mem_reverse] at h2
  exact hsub _ _ h2

theorem map_id_of_mem (f : Char → Char) (l : List Char)
    (h : ∀ a ∈ l, f a = a) : l.map f = l := by
  induction l with
  | nil => rfl
  | cons a tl ih =>
    rw [List.map_cons, h a (by simp), ih (fun b hb => h b (by simp [hb]))]

/-- Every composable pair has a base on the left and a mark on the right. -/
theorem composable_base_mark (a b : Char) (h : Composable a b = true) :
    isBase a = true ∧ isMark b = true := by
  unfold Composable at h
  rcases hf : compTab.find? (fun x => x.1 = a && x.2.1 = b) with _ | x
  · rw [hf] at h
    exact absurd h (by simp)
  · have hx := List.mem_of_find?_eq_some hf
    have hp := List.find?_some hf
    simp only [Bool.and_eq_true, decide_eq_true_eq] at hp
    constructor
    · unfold isBase
      rw [List.any_eq_true]
      exact ⟨x, hx, by simp [hp.1]⟩
    · unfold isMark
      rw [List.any_eq_true]
      exact ⟨x, hx, by simp [hp.2]⟩

/-- Shape of a character after whitespace mapping and translation. -/
theorem g_cases (d : Char) :
    mapWsChar (translateChar d) = ' ' ∨
    (∃ q ∈ transTab, mapWsChar (translateChar d) = mapWsChar q.2) ∨
    (mapWsChar (translateChar d) = d ∧ translateChar d = d ∧ isPyWs d = false) := by
  rcases hf : transTab.find? (fun p => p.1 = d) with _ | p
  · have htd : translateChar d = d := by
      unfold translateChar
      rw [hf]
    by_cases hpw : isPyWs d
    · left
      rw [htd]
      simp [mapWsChar, hpw]
    · right; right
      refine ⟨?_, htd, by simpa using hpw⟩
      rw [htd]
      simp [mapWsChar, hpw]
  · right; left
    refine ⟨p, List.mem_of_find?_eq_some hf, ?_⟩
    unfold translateChar
    rw [hf]

/-- Translated whitespace-mapped characters that are bases or marks of the
composition fragment were already fixed by both maps. -/
theorem g_fixed_of_base_or_mark (d : Char)
    (h : isBase (mapWsChar (translateChar d)) = true ∨
         isMark (mapWsChar (translateChar d)) = true) :
    mapWsChar (translateChar d) = d := by
  have hsp : isBase ' ' = false ∧ isMark ' ' = false := by decide
  have htab : ∀ q ∈ transTab,
      isBase (mapWsChar q.2) = false ∧ isMark (mapWsChar q.2) = false := by decide
  rcases g_cases d with hc | ⟨q, hq, hc⟩ | ⟨hc, _, _⟩
  · rw [hc] at h
    rcases h with h | h
    · rw [hsp.1] at h
      exact absurd h (by simp)
    · rw [hsp.2] at h
      exact absurd h (by simp)
  · rw [hc] at h
    rcases h with h | h
    · rw [(htab q hq).1] at h
      exact absurd h (by simp)
    · rw [(htab q hq).2] at h
      exact absurd h (by simp)
  · exact hc

/-- Whitespace mapping and translation introduce no composable pair. -/
theorem g_composable (a b : Char) (h : Composable a b = false) :
    Composable (mapWsChar (translateChar a)) (mapWsChar (translateChar b)) = false := by
  by_contra hc
  rw [Bool.not_eq_false] at hc
  have hbm := composable_base_mark _ _ hc
  rw [g_fixed_of_base_or_mark a (Or.inl hbm.1),
    g_fixed_of_base_or_mark b (Or.inr hbm.2)] at hc
  rw [h] at hc
  exact Bool.false_ne_true hc

/-- Pipeline-stage fixedness of a whitespace-mapped translated character
whose source is fully decomposed or precomposed and not zero width. -/
theorem g_char_props (d : Char)
    (hflat : decompAllChar d = [d] ∨ isComposed d = true)
    (hzw : isZeroWidth d = false) :
    (decompAllChar (mapWsChar (translateChar d)) = [mapWsChar (translateChar d)] ∨
       isComposed (mapWsChar (translateChar d)) = true) ∧
    translateChar (mapWsChar (translateChar d)) = mapWsChar (translateChar d) ∧
    mapWsChar (mapWsChar (translateChar d)) = mapWsChar (translateChar d) ∧
    isZeroWidth (mapWsChar (translateChar d)) = false := by
  have htab : ∀ q ∈ transTab,
      decompAllChar (mapWsChar q.2) = [mapWsChar q.2] ∧
      translateChar (mapWsChar q.2) = mapWsChar q.2 ∧
      mapWsChar (mapWsChar q.2) = mapWsChar q.2 ∧
      isZeroWidth (mapWsChar q.2) = false := by decide
  rcases g_cases d with hc | ⟨q, hq, hc⟩ | ⟨hc, htd, hpw⟩
  · rw [hc]
    exact ⟨Or.inl (by decide), by decide, by decide, by decide⟩
  · rw [hc]
    obtain ⟨h1, h2, h3, h4⟩ := htab q hq
    exact ⟨Or.inl h1, h2, h3, h4⟩
  · rw [hc]
    refine ⟨hflat, htd, ?_, hzw⟩
    simp [mapWsChar, hpw]

/-- A character produced by decomposing a non-zero-width character is not
zero width either. -/
theorem mem_decompAllChar_zw (d c : Char) (hd : isZeroWidth d = false)
    (h : c ∈ decompAllChar d) : isZeroWidth c = false := by
  have hcompat : ∀ p ∈ compatTab, ∀ e ∈ p.2, isZeroWidth e = false := by decide
  have hcomp : ∀ y ∈ compTab,
      isZeroWidth y.1 = false ∧ isZeroWidth y.2.1 = false := by decide
  rcases hf : compatTab.find? (fun p => p.1 = d) with _ | p
  · rcases hg : compTab.find? (fun t => t.2.2 = d) with _ | t
    · have he : decompAllChar d = [d] := by
        unfold decompAllChar
        rw [hf, hg]
      rw [he] at h
      rcases List.mem_singleton.mp h with rfl
      exact hd
    · have he : decompAllChar d = [t.1, t.2.1] := by
        unfold decompAllChar
        rw [hf, hg]
      rw [he] at h
      have ht := hcomp t (List.mem_of_find?_eq_some hg)
      rcases List.mem_cons.mp h with rfl | h'
      · exact ht.1
      · rcases List.mem_singleton.mp h' with rfl
        exact ht.2
  · have he : decompAllChar d = p.2 := by
      unfold decompAllChar
      rw [hf]
    rw [he] at h
    exact hcompat p (List.mem_of_find?_eq_some hf) c h

/-- NFKC of a list without zero-width characters has none either. -/
theorem zw_free_nfkc (l : List Char) (hzw : ∀ c ∈ l, isZeroWidth c = false) :
    ∀ c ∈ nfkcL l, isZeroWidth c = false := by
  intro c hc
  have hcz : ∀ y ∈ compTab, isZeroWidth y.2.2 = false := by decide
  rcases mem_composePairs _ _ hc with h' | h'
  · rcases List.mem_flatMap.mp h' with ⟨d, hd, hcd⟩
    exact mem_decompAllChar_zw d c (hzw d hd) hcd
  · unfold isComposed at h'
    rw [List.any_eq_true] at h'
    obtain ⟨y, hy, hyc⟩ := h'
    simp only [decide_eq_true_eq] at hyc
    rw [← hyc]
    exact hcz y hy

/-- On inputs without zero-width characters, the appearance-key pipeline
is idempotent at the character-list level. -/
theorem appearanceKeyL_idem (l : List Char)
    (hzw : ∀ c ∈ l, isZeroWidth c = false) :
    appearanceKeyL (appearanceKeyL l) = appearanceKeyL l := by
  have hmzw : ∀ c ∈ nfkcL l, isZeroWidth c = false := zw_free_nfkc l hzw
  have hstrip1 : stripZW (nfkcL l) = nfkcL l := by
    unfold stripZW
    rw [List.filter_eq_self]
    intro a ha
    simp [hmzw a ha]
  have hoeq : appearanceKeyL l =
      stripSp (dedupSp ((nfkcL l).map (fun d => mapWsChar (translateChar d)))) := by
    unfold appearanceKeyL collapseWs
    rw [hstrip1, List.map_map]
    rfl
  have hmem : ∀ c ∈ appearanceKeyL l,
      ∃ d ∈ nfkcL l, c = mapWsChar (translateChar d) := by
    intro c hc
    rw [hoeq] at hc
    have hc2 := mem_dedupSp _ _ (mem_stripSp _ _ hc)
    rcases List.mem_map.mp hc2 with ⟨d, hd, hcd⟩
    exact ⟨d, hd, hcd.symm⟩
  have hprops : ∀ c ∈ appearanceKeyL l,
      (decompAllChar c = [c] ∨ isComposed c = true) ∧
      translateChar c = c ∧ mapWsChar c = c ∧ isZeroWidth c = false := by
    intro c hc
    obtain ⟨d, hd, rfl⟩ := hmem c hc
    exact g_char_props d (nfkc_chars l d hd) (hmzw d hd)
  have hbase : NoComp (nfkcL l) := noComp_composePairs (l.flatMap decompAllChar)
  have hnc : NoComp (appearanceKeyL l) := by
    rw [hoeq]
    exact chainAdj_stripSp _ (chainAdj_dedupSp _
      (chainAdj_map _ _ (fun a b h => g_composable a b h) hbase))
  have hnd : NoDbl (appearanceKeyL l) := by
    rw [hoeq]
    exact chainAdj_stripSp _ (noDbl_dedupSp _)
  have hnf : nfkcL (appearanceKeyL l) = appearanceKeyL l :=
    nfkc_fixed _ (fun c hc => (hprops c hc).1) hnc
  have hsz : stripZW (appearanceKeyL l) = appearanceKeyL l := by
    unfold stripZW
    rw [List.filter_eq_self]
    intro a ha
    simp [(hprops a ha).2.2.2]
  have htr : (appearanceKeyL l).map translateChar = appearanceKeyL l :=
    map_id_of_mem _ _ (fun a ha => (hprops a ha).2.1)
  have hwsm : (appearanceKeyL l).map mapWsChar = appearanceKeyL l :=
    map_id_of_mem _ _ (fun a ha => (hprops a ha).2.2.1)
  have hdd : dedupSp (appearanceKeyL l) = appearanceKeyL l := dedupSp_fixed _ hnd
  have hss : stripSp (appearanceKeyL l) = appearanceKeyL l := by
    rw [hoeq]
    exact stripSp_idem _
  show collapseWs ((stripZW (nfkcL (appearanceKeyL l))).map translateChar) =
    appearanceKeyL l
  rw [hnf, hsz, htr]
  unfold collapseWs
  rw [hwsm, hdd, hss]

/-- C10 (amended): `appearance_key` is idempotent on every string that
contains no zero-width character (U+200B, U+200C, U+200D, U+FEFF):
applying the normalization twice gives the same key as applying it once,
so keys of such texts are already in canonical form. (On strings with a
zero-width character between a base letter and a combining mark the
claim fails, see the counterexample.) -/
theorem appearance_key_idem (t : String)
    (hzw : ∀ c ∈ t.data, isZeroWidth c = false) :
    appearance_key (appearance_key t) = appearance_key t := by
  unfold appearance_key
  rw [show (String.mk (appearanceKeyL t.data)).data = appearanceKeyL t.data from rfl,
    appearanceKeyL_idem t.data hzw]

/-- C10 counterexample: on "e" + zero-width space + combining acute, the
zero-width character blocks canonical composition inside NFKC and is only
stripped afterwards, so the first key is "e" followed by U+0301, while
re-keying composes that to the single character "é": `appearance_key` is
not idempotent on every string. -/
theorem appearance_key_idem_counterexample :
    appearance_key (appearance_key "e​́") ≠
      appearance_key "e​́" := by decide

theorem appearance_key_idem_witness :
    (∀ c ∈ ("Ye  olde “quoth”".data), isZeroWidth c = false) ∧
    appearance_key (appearance_key "Ye  olde “quoth”") =
      appearance_key "Ye  olde “quoth”" :=
  ⟨by decide, appearance_key_idem _ (by decide)⟩

end ExpandDiplomatic
